import Mathlib

/-!
Verification of the LEADERBOARD-GO ranking store (src/backend/index.go).

The Go code is shallowly embedded: Go strings are byte lists (`List Nat`,
each entry a byte value), Go `int`/`int32`/`int64` are `Int` (all values
manipulated by the claims stay far below the machine bounds, so overflow
does not occur on the inputs the theorems quantify over), slices indexed
by user id or bucket index are total functions from `Nat`, and each Go
function is translated statement by statement.  Concurrency is collapsed:
every operation of the store runs atomically on an explicit `Store` value,
matching the code's own quiescent ("at quiescence") specification.
-/

/-- RMIN from the source (`minRating = 100`). -/
def minRating : Int := 100

/-- RMAX from the source (`maxRating = 5000`). -/
def maxRating : Int := 5000

/-- Number of rating buckets, `ratingRange := maxRating - minRating + 1` in `NewStore`. -/
def numBuckets : Nat := 4901

/-- Strict byte-wise lexicographic order on byte strings: Go's `<` on `string`. -/
def bytesLt : List Nat → List Nat → Bool
  | [], [] => false
  | [], _ :: _ => true
  | _ :: _, [] => false
  | a :: as, b :: bs => if a < b then true else if b < a then false else bytesLt as bs

/-- Byte-string check that `p` is an initial segment of `e` (Go `strings.HasPrefix`-style). -/
def startsWith : List Nat → List Nat → Bool
  | [], _ => true
  | _ :: _, [] => false
  | a :: as, b :: bs => a == b && startsWith as bs

theorem bytesLt_cons_cons (x y : Nat) (xs ys : List Nat) :
    bytesLt (x :: xs) (y :: ys) =
      if x < y then true else if y < x then false else bytesLt xs ys := rfl

theorem bytesLt_irrefl : ∀ l : List Nat, bytesLt l l = false := by
  intro l
  induction l with
  | nil => rfl
  | cons a as ih => simp [bytesLt_cons_cons, ih]

theorem bytesLt_asymm : ∀ {a b : List Nat}, bytesLt a b = true → bytesLt b a = false := by
  intro a
  induction a with
  | nil =>
    intro b h
    cases b with
    | nil => simp [bytesLt] at h
    | cons y ys => rfl
  | cons x xs ih =>
    intro b h
    cases b with
    | nil => simp [bytesLt] at h
    | cons y ys =>
      rw [bytesLt_cons_cons] at h ⊢
      rcases Nat.lt_trichotomy x y with hlt | heq | hgt
      · simp [hlt, Nat.lt_asymm hlt, Nat.ne_of_lt hlt]
      · subst heq
        simp only [lt_irrefl, if_false] at h ⊢
        exact ih h
      · simp [hgt, Nat.lt_asymm hgt] at h

theorem bytesLt_trans : ∀ {a b c : List Nat},
    bytesLt a b = true → bytesLt b c = true → bytesLt a c = true := by
  intro a
  induction a with
  | nil =>
    intro b c hab hbc
    cases b with
    | nil => simp [bytesLt] at hab
    | cons y ys =>
      cases c with
      | nil => simp [bytesLt] at hbc
      | cons z zs => rfl
  | cons x xs ih =>
    intro b c hab hbc
    cases b with
    | nil => simp [bytesLt] at hab
    | cons y ys =>
      cases c with
      | nil => simp [bytesLt] at hbc
      | cons z zs =>
        rw [bytesLt_cons_cons] at hab hbc ⊢
        rcases Nat.lt_trichotomy x y with hxy | hxy | hxy
        · rcases Nat.lt_trichotomy y z with hyz | hyz | hyz
          · simp [Nat.lt_trans hxy hyz]
          · subst hyz; simp [hxy]
          · simp [Nat.lt_asymm hyz, Nat.ne_of_gt hyz, hyz] at hbc
        · subst hxy
          rcases Nat.lt_trichotomy x z with hyz | hyz | hyz
          · simp [hyz]
          · subst hyz
            simp only [lt_irrefl, if_false] at hab hbc ⊢
            exact ih hab hbc
          · simp [Nat.lt_asymm hyz, hyz] at hbc
        · simp [Nat.lt_asymm hxy, hxy] at hab

theorem bytesLt_eq_of_not : ∀ {a b : List Nat},
    bytesLt a b = false → bytesLt b a = false → a = b := by
  intro a
  induction a with
  | nil =>
    intro b hab _
    cases b with
    | nil => rfl
    | cons y ys => simp [bytesLt] at hab
  | cons x xs ih =>
    intro b hab hba
    cases b with
    | nil => simp [bytesLt] at hba
    | cons y ys =>
      rw [bytesLt_cons_cons] at hab hba
      rcases Nat.lt_trichotomy x y with hxy | hxy | hxy
      · simp [hxy] at hab
      · subst hxy
        simp only [lt_irrefl, if_false] at hab hba
        exact congrArg (x :: ·) (ih hab hba)
      · simp [Nat.lt_asymm hxy, hxy] at hba

theorem bytesLt_trichotomy (a b : List Nat) :
    bytesLt a b = true ∨ a = b ∨ bytesLt b a = true := by
  by_cases hab : bytesLt a b = true
  · exact Or.inl hab
  · by_cases hba : bytesLt b a = true
    · exact Or.inr (Or.inr hba)
    · exact Or.inr (Or.inl (bytesLt_eq_of_not
        (Bool.eq_false_iff.mpr hab) (Bool.eq_false_iff.mpr hba)))

theorem startsWith_iff_append : ∀ {p e : List Nat},
    startsWith p e = true ↔ ∃ r, e = p ++ r := by
  intro p
  induction p with
  | nil =>
    intro e
    simp [startsWith]
  | cons x xs ih =>
    intro e
    cases e with
    | nil =>
      simp [startsWith]
    | cons y ys =>
      simp only [startsWith, Bool.and_eq_true, beq_iff_eq]
      constructor
      · rintro ⟨rfl, h⟩
        obtain ⟨r, rfl⟩ := ih.mp h
        exact ⟨r, rfl⟩
      · rintro ⟨r, hr⟩
        have hx : x = y := by
          have := congrArg List.head? hr
          simpa using this.symm
        have ht : ys = xs ++ r := by
          have := congrArg List.tail hr
          simpa using this
        exact ⟨hx, ih.mpr ⟨r, ht⟩⟩

theorem not_bytesLt_append (p r : List Nat) : bytesLt (p ++ r) p = false := by
  induction p with
  | nil =>
    cases r with
    | nil => rfl
    | cons y ys => rfl
  | cons x xs ih => simp [bytesLt_cons_cons, ih]

theorem bytesLt_append_sentinel_aux (p r : List Nat) (hfree : ∀ b ∈ r, b < 255) :
    bytesLt (p ++ r) (p ++ [255]) = true := by
  induction p with
  | nil =>
    cases r with
    | nil => rfl
    | cons y ys =>
      have : y < 255 := hfree y (by simp)
      simp [bytesLt_cons_cons, this]
  | cons x xs ih => simp [bytesLt_cons_cons, ih]

theorem bytesLt_append_sentinel {p e : List Nat} (h : startsWith p e = true)
    (hfree : ∀ b ∈ e, b < 255) : bytesLt e (p ++ [255]) = true := by
  obtain ⟨r, rfl⟩ := startsWith_iff_append.mp h
  exact bytesLt_append_sentinel_aux p r (fun b hb => hfree b (by simp [hb]))

theorem startsWith_of_window : ∀ {p e : List Nat},
    bytesLt e p = false → bytesLt e (p ++ [255]) = true → startsWith p e = true := by
  intro p
  induction p with
  | nil => intro e _ _; rfl
  | cons x xs ih =>
    intro e hnot hlt
    cases e with
    | nil => simp [bytesLt] at hlt hnot ⊢
    | cons y ys =>
      rw [bytesLt_cons_cons] at hnot
      rw [List.cons_append, bytesLt_cons_cons] at hlt
      rcases Nat.lt_trichotomy y x with hyx | hyx | hyx
      · simp [hyx] at hnot
      · subst hyx
        simp only [lt_irrefl, if_false] at hnot hlt
        simp only [startsWith, beq_self_eq_true, Bool.true_and]
        exact ih hnot hlt
      · simp [Nat.lt_asymm hyx, hyx] at hlt

/-- ASCII case folding for one byte, the byte-level content of `strings.ToLower`
on the ASCII usernames of this repository. -/
def toLowerByte (b : Nat) : Nat := if 65 ≤ b ∧ b ≤ 90 then b + 32 else b

/-- Byte-level `strings.ToLower`. -/
def toLowerBytes (l : List Nat) : List Nat := l.map toLowerByte

/-- ASCII whitespace test, the byte-level content of `unicode.IsSpace`. -/
def isSpaceByte (b : Nat) : Bool :=
  b == 9 || b == 10 || b == 11 || b == 12 || b == 13 || b == 32

/-- Byte-level `strings.TrimSpace`: strip whitespace from both ends. -/
def trimSpace (l : List Nat) : List Nat :=
  ((l.dropWhile isSpaceByte).reverse.dropWhile isSpaceByte).reverse

/-- Seed record (`SeedUser` in the source). -/
structure SeedUser where
  username : List Nat
  rating : Int
deriving DecidableEq

/-- Entry of the sorted prefix index (`UsernameIndex` in the source). -/
structure UsernameIndex where
  usernameLower : List Nat
  id : Nat
deriving DecidableEq

/-- One rendered leaderboard row (`LeaderboardEntry` in the source). -/
structure LeaderboardEntry where
  rank : Int
  username : List Nat
  rating : Int
deriving DecidableEq

/-- The ranking store (`Store` in the source).  Dense Go slices indexed by user
id or bucket index become total functions from `Nat`; `atomic.Value` snapshot
storage becomes a plain list field. -/
structure Store where
  users : Nat → List Nat
  ratings : Nat → Int
  usernameLower : Nat → List Nat
  usernameIndex : List UsernameIndex
  ratingCounts : Nat → Int
  totalUsers : Nat
  ratingBuckets : Nat → List Nat
  bucketIndex : Nat → Nat
  snapshot : List Nat

/-- Source `clampRating`. -/
def clampRating (value : Int) : Int :=
  if value < minRating then minRating
  else if value > maxRating then maxRating
  else value

/-- Source `calcTotalPages`. -/
def calcTotalPages (total limit : Int) : Int :=
  if total ≤ 0 ∨ limit ≤ 0 then 0
  else (total + limit - 1) / limit

/-- Source `clampPage`. -/
def clampPage (page totalPages : Int) : Int :=
  let page := if page < 1 then 1 else page
  if totalPages > 0 ∧ page > totalPages then totalPages else page

/-- Source `Store.rank`: clamp the rating, then sum the counters of all
strictly higher buckets and add one.  The Go loop `for current := rating+1;
current <= maxRating; current++` is rendered as a fold over the loop
iterations, with `current = rating + 1 + i`. -/
def Store.rank (s : Store) (rating : Int) : Int :=
  ((List.range ((maxRating - clampRating rating).toNat)).foldl
    (fun (above : Int) (i : Nat) =>
      above + s.ratingCounts ((clampRating rating + 1 + (i : Int) - minRating).toNat)) 0) + 1

/-- The `LeaderboardEntry` rendered for user `id`: live rating, live rank,
display username — the loop body shared by `LeaderboardPage` and `SearchPage`. -/
def Store.entryOf (s : Store) (id : Nat) : LeaderboardEntry :=
  { rank := s.rank (s.ratings id), username := s.users id, rating := s.ratings id }

/-- Comparator of the per-bucket sort in `buildSnapshot`
(`s.usernameLower[ids[i]] < s.usernameLower[ids[j]]`), as the non-strict total
preorder the sorted output satisfies. -/
def Store.bucketLeB (s : Store) (i j : Nat) : Bool :=
  !(bytesLt (s.usernameLower j) (s.usernameLower i))

/-- Propositional form of `Store.bucketLeB`, used by the sort. -/
def Store.bucketLe (s : Store) (i j : Nat) : Prop := s.bucketLeB i j = true

instance (s : Store) : DecidableRel s.bucketLe :=
  fun i j => inferInstanceAs (Decidable (s.bucketLeB i j = true))

/-- Source `Store.buildSnapshot`: walk ratings from `maxRating` down to
`minRating`; append each bucket, sorting copies of multi-member buckets by
lowercase username.  Skipping empty buckets appends nothing, so it needs no
separate branch. -/
def Store.snapshotChunk (s : Store) (b : Nat) : List Nat :=
  let bucket := s.ratingBuckets b
  if bucket.length > 1 then List.insertionSort s.bucketLe bucket else bucket

def Store.buildSnapshot (s : Store) : List Nat :=
  (((List.range numBuckets).reverse).map s.snapshotChunk).flatten

/-- Source `Store.RefreshSnapshot`: publish the freshly built snapshot. -/
def Store.RefreshSnapshot (s : Store) : Store :=
  { s with snapshot := s.buildSnapshot }

/-- Source `Store.SnapshotIDs`. -/
def Store.SnapshotIDs (s : Store) : List Nat := s.snapshot

/-- Source `Store.LeaderboardPage`. -/
def Store.LeaderboardPage (s : Store) (page limit : Int) : List LeaderboardEntry :=
  let limit := if limit ≤ 0 then 20 else limit
  let page := if page ≤ 0 then 1 else page
  let snapshot := s.SnapshotIDs
  if snapshot.length = 0 then []
  else
    let offset := (page - 1) * limit
    if offset ≥ (snapshot.length : Int) then []
    else
      let stop := if offset + limit > (snapshot.length : Int) then (snapshot.length : Int)
        else offset + limit
      ((snapshot.drop offset.toNat).take (stop - offset).toNat).map s.entryOf

/-- Binary search exactly as Go's `sort.Search(n, f)`. -/
def sortSearchAux (f : Nat → Bool) (i j : Nat) : Nat :=
  if i < j then
    if f ((i + j) / 2) then sortSearchAux f i ((i + j) / 2)
    else sortSearchAux f ((i + j) / 2 + 1) j
  else i
termination_by j - i
decreasing_by
  all_goals omega

/-- Go `sort.Search(n, f)`. -/
def sortSearch (n : Nat) (f : Nat → Bool) : Nat := sortSearchAux f 0 n

/-- Lower bound used by `SearchPage`: first index whose name is `>= pre`
(Go `sort.Search` with predicate `s.usernameIndex[i].UsernameLower >= prefix`). -/
def Store.searchLow (s : Store) (pre : List Nat) : Nat :=
  sortSearch s.usernameIndex.length
    (fun i => !(bytesLt ((s.usernameIndex.getD i ⟨[], 0⟩).usernameLower) pre))

/-- Upper bound used by `SearchPage`: same search against `prefix + "\xff"`. -/
def Store.searchHigh (s : Store) (pre : List Nat) : Nat :=
  s.searchLow (pre ++ [255])

/-- Source `Store.SearchPage`, returning `(results, total, page, totalPages)`. -/
def Store.SearchPage (s : Store) (pre : List Nat) (page limit : Int) :
    List LeaderboardEntry × Int × Int × Int :=
  let limit := if limit ≤ 0 then 20 else limit
  let page := if page ≤ 0 then 1 else page
  let pre := toLowerBytes (trimSpace pre)
  if pre = [] then ([], 0, page, 0)
  else
    let start := s.searchLow pre
    let stop := s.searchHigh pre
    let total : Int := (stop : Int) - (start : Int)
    let totalPages := calcTotalPages total limit
    let page := clampPage page totalPages
    if total = 0 then ([], 0, page, totalPages)
    else
      let offset := (page - 1) * limit
      let startIdx : Int := (start : Int) + offset
      if startIdx ≥ (stop : Int) then ([], total, page, totalPages)
      else
        let endIdx : Int := if startIdx + limit > (stop : Int) then (stop : Int)
          else startIdx + limit
        (((s.usernameIndex.drop startIdx.toNat).take (endIdx - startIdx).toNat).map
          (fun e => s.entryOf e.id),
         total, page, totalPages)

/-- Limit preprocessing of the `/search` HTTP handler in `buildApp`:
default non-positive values to 20, then cap at 200. -/
def searchHandlerLimit (limit : Int) : Int :=
  let limit := if limit ≤ 0 then 20 else limit
  if limit > 200 then 200 else limit

/-- Source `Store.updateUserRating`: swap-with-last removal from the old
bucket, append to the new bucket, fix both back-references, adjust the two
counters, store the new rating. -/
def Store.updateUserRating (s : Store) (id : Nat) (newRating : Int) : Store :=
  let oldRating := s.ratings id
  if oldRating = newRating then s
  else
    let oldBucketIdx := (oldRating - minRating).toNat
    let newBucketIdx := (newRating - minRating).toNat
    let oldBucket := s.ratingBuckets oldBucketIdx
    let oldPos := s.bucketIndex id
    let lastID := oldBucket.getD (oldBucket.length - 1) 0
    let oldBucket2 := (oldBucket.set oldPos lastID).take (oldBucket.length - 1)
    let bucketIndex1 := fun j => if j = lastID then oldPos else s.bucketIndex j
    let ratingBuckets1 := fun b => if b = oldBucketIdx then oldBucket2 else s.ratingBuckets b
    let newBucket := ratingBuckets1 newBucketIdx
    let bucketIndex2 := fun j => if j = id then newBucket.length else bucketIndex1 j
    let ratingBuckets2 := fun b => if b = newBucketIdx then newBucket ++ [id] else ratingBuckets1 b
    let ratingCounts1 := fun b => if b = oldBucketIdx then s.ratingCounts b - 1 else s.ratingCounts b
    let ratingCounts2 := fun b => if b = newBucketIdx then ratingCounts1 b + 1 else ratingCounts1 b
    { s with ratingBuckets := ratingBuckets2, bucketIndex := bucketIndex2,
             ratingCounts := ratingCounts2,
             ratings := fun j => if j = id then newRating else s.ratings j }

/-- Comparator of the `sort.Slice` call in `NewStore`, as the non-strict
form the sorted output satisfies: ties on the lowercase name are broken by
id.  This relation is a total order on entries with distinct ids, so every
comparison sort produces the same list as Go's. -/
def uiLeB (a b : UsernameIndex) : Bool :=
  if a.usernameLower = b.usernameLower then a.id ≤ b.id
  else !(bytesLt b.usernameLower a.usernameLower)

/-- Propositional form of `uiLeB`, used by the sort. -/
def uiLe (a b : UsernameIndex) : Prop := uiLeB a b = true

instance : DecidableRel uiLe :=
  fun a b => inferInstanceAs (Decidable (uiLeB a b = true))

/-- Body of the seeding loop of `NewStore` for one seed at index `id`. -/
def seedStep (st : Store) (id : Nat) (seed : SeedUser) : Store :=
  let rating := clampRating seed.rating
  let lower := toLowerBytes seed.username
  let ratingIdx := (rating - minRating).toNat
  { st with
    users := fun j => if j = id then seed.username else st.users j,
    ratings := fun j => if j = id then rating else st.ratings j,
    usernameLower := fun j => if j = id then lower else st.usernameLower j,
    usernameIndex := st.usernameIndex ++ [{ usernameLower := lower, id := id }],
    bucketIndex := fun j => if j = id then (st.ratingBuckets ratingIdx).length else st.bucketIndex j,
    ratingBuckets := fun b => if b = ratingIdx then st.ratingBuckets ratingIdx ++ [id]
      else st.ratingBuckets b,
    ratingCounts := fun b => if b = ratingIdx then st.ratingCounts b + 1 else st.ratingCounts b }

/-- The seeding loop of `NewStore` (`for id, seed := range seeds`). -/
def seedLoop : Store → Nat → List SeedUser → Store
  | st, _, [] => st
  | st, id, seed :: rest => seedLoop (seedStep st id seed) (id + 1) rest

/-- Source `NewStore`: seed all users, then sort the username index. -/
def NewStore (seeds : List SeedUser) : Store :=
  let base : Store := {
    users := fun _ => [], ratings := fun _ => 0, usernameLower := fun _ => [],
    usernameIndex := [], ratingCounts := fun _ => 0, totalUsers := seeds.length,
    ratingBuckets := fun _ => [], bucketIndex := fun _ => 0, snapshot := [] }
  let st := seedLoop base 0 seeds
  { st with usernameIndex := List.insertionSort uiLe st.usernameIndex }

theorem sortSearchAux_spec (f : Nat → Bool) (i j : Nat) (hij : i ≤ j)
    (mono : ∀ a b, i ≤ a → a ≤ b → b < j → f a = true → f b = true) :
    i ≤ sortSearchAux f i j ∧ sortSearchAux f i j ≤ j ∧
      (∀ k, i ≤ k → k < sortSearchAux f i j → f k = false) ∧
      (∀ k, sortSearchAux f i j ≤ k → k < j → f k = true) := by
  rw [sortSearchAux]
  by_cases h : i < j
  · rw [if_pos h]
    have him : i ≤ (i + j) / 2 := by omega
    have hmj : (i + j) / 2 < j := by omega
    by_cases hfm : f ((i + j) / 2) = true
    · rw [if_pos hfm]
      obtain ⟨h1, h2, h3, h4⟩ := sortSearchAux_spec f i ((i + j) / 2) him
        (fun a b ha hab hb hfa => mono a b ha hab (by omega) hfa)
      refine ⟨h1, by omega, h3, ?_⟩
      intro k hk hkj
      by_cases hkm : k < (i + j) / 2
      · exact h4 k hk hkm
      · exact mono ((i + j) / 2) k him (by omega) hkj hfm
    · rw [if_neg hfm]
      obtain ⟨h1, h2, h3, h4⟩ := sortSearchAux_spec f ((i + j) / 2 + 1) j (by omega)
        (fun a b ha hab hb hfa => mono a b (by omega) hab hb hfa)
      refine ⟨by omega, h2, ?_, h4⟩
      intro k hk hkr
      by_cases hkm : k ≤ (i + j) / 2
      · by_cases hfk : f k = true
        · exact absurd (mono k ((i + j) / 2) hk hkm (by omega) hfk) hfm
        · exact Bool.eq_false_iff.mpr hfk
      · exact h3 k (by omega) hkr
  · rw [if_neg h]
    exact ⟨le_refl i, hij, fun k hk hk' => absurd (lt_of_le_of_lt hk hk') (lt_irrefl i),
      fun k hk hkj => absurd (lt_of_le_of_lt hk hkj) h⟩
termination_by j - i
decreasing_by
  all_goals omega

theorem sortSearch_spec (n : Nat) (f : Nat → Bool)
    (mono : ∀ a b, a ≤ b → b < n → f a = true → f b = true) :
    sortSearch n f ≤ n ∧
      (∀ k, k < sortSearch n f → f k = false) ∧
      (∀ k, sortSearch n f ≤ k → k < n → f k = true) := by
  obtain ⟨_, h2, h3, h4⟩ := sortSearchAux_spec f 0 n (Nat.zero_le n)
    (fun a b _ hab hb hfa => mono a b hab hb hfa)
  exact ⟨h2, fun k hk => h3 k (Nat.zero_le k) hk, h4⟩

/-- Five-user population from the spec's end-to-end scenarios
(alice 1500, bob 1500, carol 1700, dave 900, eve 5200). -/
def demoSeeds : List SeedUser :=
  [⟨[97, 108, 105, 99, 101], 1500⟩, ⟨[98, 111, 98], 1500⟩, ⟨[99, 97, 114, 111, 108], 1700⟩,
   ⟨[100, 97, 118, 101], 900⟩, ⟨[101, 118, 101], 5200⟩]

/-- Concrete store obtained by seeding the demo population. -/
def demoStore : Store := NewStore demoSeeds

/-- Concrete demo store with its snapshot published. -/
def demoStoreSnap : Store := demoStore.RefreshSnapshot

/-- Three users whose usernames are distinct but fold to colliding lowercase
names: "A", "a", "b", all rated 1500. -/
def dupSeeds : List SeedUser := [⟨[65], 1500⟩, ⟨[97], 1500⟩, ⟨[98], 1500⟩]

/-- Store reachable from `NewStore dupSeeds` by two valid rating updates;
they reorder bucket 1400 to `[2, 1, 0]`. -/
def dupStore : Store := ((NewStore dupSeeds).updateUserRating 0 1600).updateUserRating 0 1500

/-- The swap-with-last removal performed by `updateUserRating` on the old
bucket: overwrite position `pos` with the last element, then truncate. -/
def swapRemove (l : List Nat) (pos : Nat) : List Nat :=
  (l.set pos (l.getD (l.length - 1) 0)).take (l.length - 1)

/-- Bucket index owning user `id`: the bucket of its current rating. -/
def bIdx (s : Store) (id : Nat) : Nat := (s.ratings id - minRating).toNat

/-- The store invariants of the spec's data model (section 3): ratings are in
range; every id sits in exactly the bucket of its rating, at the position its
back-reference records; buckets hold no duplicates and only valid ids; every
counter equals its bucket's length; buckets outside the rating range are
empty; and bucket sizes sum to the population size. -/
structure StoreInv (s : Store) : Prop where
  rating_lb : ∀ id, id < s.totalUsers → minRating ≤ s.ratings id
  rating_ub : ∀ id, id < s.totalUsers → s.ratings id ≤ maxRating
  bucket_mem : ∀ id, id < s.totalUsers →
    (s.ratingBuckets (bIdx s id))[s.bucketIndex id]? = some id
  bucket_elems : ∀ b id, id ∈ s.ratingBuckets b → id < s.totalUsers ∧ bIdx s id = b
  bucket_nodup : ∀ b, (s.ratingBuckets b).Nodup
  counts_eq : ∀ b, s.ratingCounts b = ((s.ratingBuckets b).length : Int)
  buckets_out : ∀ b, numBuckets ≤ b → s.ratingBuckets b = []
  total_eq : ∑ b in Finset.range numBuckets, ((s.ratingBuckets b).length : Int)
    = (s.totalUsers : Int)

/-- Invariant of `NewStore`'s seeding loop after the first `k` seeds. -/
structure SeedInv (st : Store) (k : Nat) : Prop where
  rating_lb : ∀ id, id < k → minRating ≤ st.ratings id
  rating_ub : ∀ id, id < k → st.ratings id ≤ maxRating
  bucket_mem : ∀ id, id < k →
    (st.ratingBuckets (bIdx st id))[st.bucketIndex id]? = some id
  bucket_elems : ∀ b id, id ∈ st.ratingBuckets b → id < k ∧ bIdx st id = b
  bucket_nodup : ∀ b, (st.ratingBuckets b).Nodup
  counts_eq : ∀ b, st.ratingCounts b = ((st.ratingBuckets b).length : Int)
  buckets_out : ∀ b, numBuckets ≤ b → st.ratingBuckets b = []
  total_eq : ∑ b in Finset.range numBuckets, ((st.ratingBuckets b).length : Int) = (k : Int)

/-- States reachable from seeding by valid `updateUserRating` calls: the calls
the mutator loop issues (ids below the population size, ratings pre-clamped
into the legal range). -/
inductive Reachable : Store → Prop
  | seed (seeds : List SeedUser) : Reachable (NewStore seeds)
  | step {s : Store} (id : Nat) (r : Int) : Reachable s → id < s.totalUsers →
      minRating ≤ r → r ≤ maxRating → Reachable (s.updateUserRating id r)

/-- Snapshot order without an id tie-break: descending rating, then ascending
lowercase username. -/
def snapLe (s : Store) (a b : Nat) : Prop :=
  s.ratings b < s.ratings a ∨
    (s.ratings a = s.ratings b ∧ bytesLt (s.usernameLower b) (s.usernameLower a) = false)

/-- Snapshot order of the claim: descending rating, then ascending lowercase
username, then ascending id. -/
def snapLex (s : Store) (a b : Nat) : Prop :=
  s.ratings b < s.ratings a ∨
    (s.ratings a = s.ratings b ∧
      (bytesLt (s.usernameLower a) (s.usernameLower b) = true ∨
        (s.usernameLower a = s.usernameLower b ∧ a < b)))

instance (s : Store) : DecidableRel (snapLex s) := fun a b => by
  unfold snapLex
  infer_instance

instance (s : Store) : DecidableRel (snapLe s) := fun a b => by
  unfold snapLe
  infer_instance

theorem clampRating_lb (r : Int) : minRating ≤ clampRating r := by
  simp only [clampRating, minRating, maxRating]
  split_ifs <;> omega

theorem clampRating_ub (r : Int) : clampRating r ≤ maxRating := by
  simp only [clampRating, minRating, maxRating]
  split_ifs <;> omega

theorem clampRating_eq_self {r : Int} (h1 : minRating ≤ r) (h2 : r ≤ maxRating) :
    clampRating r = r := by
  simp only [minRating, maxRating] at h1 h2
  simp only [clampRating, minRating, maxRating]
  split_ifs <;> omega

theorem clampRating_idem (r : Int) : clampRating (clampRating r) = clampRating r :=
  clampRating_eq_self (clampRating_lb r) (clampRating_ub r)

theorem clampRating_mono {r1 r2 : Int} (h : r1 ≤ r2) : clampRating r1 ≤ clampRating r2 := by
  simp only [clampRating, minRating, maxRating]
  split_ifs <;> omega

theorem foldl_add_range (g : Nat → Int) :
    ∀ m : Nat, (List.range m).foldl (fun a i => a + g i) 0 = ∑ i in Finset.range m, g i := by
  intro m
  induction m with
  | zero => simp
  | succ m ih =>
    rw [List.range_succ, List.foldl_append, ih, Finset.sum_range_succ]
    rfl

theorem rank_eq_sum (s : Store) (r : Int) :
    s.rank r = 1 + ∑ b in Finset.range numBuckets,
      (if clampRating r < minRating + (b : Int) then s.ratingCounts b else 0) := by
  have hc1 : minRating ≤ clampRating r := clampRating_lb r
  have hc2 : clampRating r ≤ maxRating := clampRating_ub r
  obtain ⟨cN, hcNle, hcval⟩ : ∃ cN : Nat, cN ≤ 4900 ∧ clampRating r = minRating + (cN : Int) := by
    refine ⟨(clampRating r - minRating).toNat, ?_, ?_⟩ <;>
      simp only [minRating, maxRating] at * <;> omega
  rw [Store.rank, foldl_add_range]
  have hm : (maxRating - clampRating r).toNat = 4900 - cN := by
    rw [hcval]; simp only [minRating, maxRating]; omega
  have hidx : ∀ i : Nat, ((clampRating r + 1 + (i : Int) - minRating).toNat) = cN + 1 + i := by
    intro i; rw [hcval]; simp only [minRating]; omega
  rw [hm]
  have hL : ∑ i in Finset.range (4900 - cN),
      s.ratingCounts ((clampRating r + 1 + (i : Int) - minRating).toNat)
      = ∑ b in Finset.Ico (cN + 1) 4901, s.ratingCounts b := by
    rw [Finset.sum_Ico_eq_sum_range]
    have hn : 4901 - (cN + 1) = 4900 - cN := by omega
    rw [hn]
    exact Finset.sum_congr rfl (fun i _ => by rw [hidx i])
  rw [hL]
  have hR : ∑ b in Finset.range numBuckets,
      (if clampRating r < minRating + (b : Int) then s.ratingCounts b else 0)
      = ∑ b in Finset.Ico (cN + 1) 4901, s.ratingCounts b := by
    rw [show numBuckets = 4901 from rfl, Finset.range_eq_Ico,
      ← Finset.sum_Ico_consecutive _ (Nat.zero_le (cN + 1)) (by omega : cN + 1 ≤ 4901)]
    have h0 : ∑ b in Finset.Ico 0 (cN + 1),
        (if clampRating r < minRating + (b : Int) then s.ratingCounts b else 0) = 0 := by
      apply Finset.sum_eq_zero
      intro b hb
      rw [Finset.mem_Ico] at hb
      rw [if_neg]
      rw [hcval]
      have : (b : Int) ≤ (cN : Int) := by exact_mod_cast Nat.lt_succ_iff.mp hb.2
      omega
    have h1 : ∑ b in Finset.Ico (cN + 1) 4901,
        (if clampRating r < minRating + (b : Int) then s.ratingCounts b else 0)
        = ∑ b in Finset.Ico (cN + 1) 4901, s.ratingCounts b := by
      apply Finset.sum_congr rfl
      intro b hb
      rw [Finset.mem_Ico] at hb
      rw [if_pos]
      rw [hcval]
      have : (cN : Int) < (b : Int) := by exact_mod_cast Nat.lt_of_succ_le hb.1
      omega
    rw [h0, h1, zero_add]
  rw [hR]
  ring

theorem seedLoop_counts_nonneg :
    ∀ (seeds : List SeedUser) (st : Store) (k : Nat),
      (∀ b, 0 ≤ st.ratingCounts b) → ∀ b, 0 ≤ (seedLoop st k seeds).ratingCounts b := by
  intro seeds
  induction seeds with
  | nil => intro st k h b; exact h b
  | cons seed rest ih =>
    intro st k h b
    refine ih (seedStep st k seed) (k + 1) ?_ b
    intro b'
    simp only [seedStep]
    split_ifs with hb'
    · have := h b'; omega
    · exact h b'

theorem newStore_counts_nonneg (seeds : List SeedUser) :
    ∀ b, 0 ≤ (NewStore seeds).ratingCounts b := by
  intro b
  show 0 ≤ (seedLoop _ 0 seeds).ratingCounts b
  exact seedLoop_counts_nonneg seeds _ 0 (fun _ => le_refl 0) b

/-- C1: for every integer rating `r`, `rank(r)` first clamps `r` into
`[100, 5000]` and returns 1 plus the sum of the bucket counters for all
ratings strictly greater than the clamped `r` (the counter of bucket `b`
belongs to rating `minRating + b`); consequently any two users with equal
rating receive the same rank. -/
theorem c1_rank_clamped_sum (s : Store) (r : Int) :
    s.rank r = s.rank (clampRating r) ∧
    s.rank r = 1 + ∑ b in Finset.range numBuckets,
      (if clampRating r < minRating + (b : Int) then s.ratingCounts b else 0) ∧
    (∀ id1 id2 : Nat, s.ratings id1 = s.ratings id2 →
      s.rank (s.ratings id1) = s.rank (s.ratings id2)) := by
  refine ⟨?_, rank_eq_sum s r, ?_⟩
  · unfold Store.rank
    rw [clampRating_idem]
  · intro id1 id2 h
    rw [h]

/-- Witness for C1 at the demo store: alice (id 0) and bob (id 1) share
rating 1500, so they receive the same rank. -/
theorem c1_rank_clamped_sum_witness :
    demoStore.ratings 0 = demoStore.ratings 1 ∧
    demoStore.rank (demoStore.ratings 0) = demoStore.rank (demoStore.ratings 1) :=
  ⟨by decide, (c1_rank_clamped_sum demoStore 1500).2.2 0 1 (by decide)⟩

/-- C10: for any fixed, non-negative state of the bucket counters (counters
are bucket sizes, hence non-negative in every reachable store), rank is
antitone in the rating, and every rating at or above 5000 has rank 1. -/
theorem c10_rank_antitone (s : Store) (h : ∀ b : Nat, 0 ≤ s.ratingCounts b) :
    (∀ r1 r2 : Int, r1 ≤ r2 → s.rank r2 ≤ s.rank r1) ∧
    (∀ r : Int, maxRating ≤ r → s.rank r = 1) := by
  constructor
  · intro r1 r2 h12
    rw [rank_eq_sum s r1, rank_eq_sum s r2]
    have hc := clampRating_mono h12
    apply add_le_add_left
    apply Finset.sum_le_sum
    intro b _
    by_cases h2 : clampRating r2 < minRating + (b : Int)
    · rw [if_pos h2, if_pos (lt_of_le_of_lt hc h2)]
    · rw [if_neg h2]
      by_cases h1 : clampRating r1 < minRating + (b : Int)
      · rw [if_pos h1]; exact h b
      · rw [if_neg h1]
  · intro r hr
    rw [rank_eq_sum]
    have hc : clampRating r = maxRating := by
      simp only [clampRating, minRating, maxRating] at hr ⊢
      split_ifs <;> omega
    rw [hc]
    have hz : ∑ b in Finset.range numBuckets,
        (if maxRating < minRating + (b : Int) then s.ratingCounts b else 0) = 0 := by
      apply Finset.sum_eq_zero
      intro b hb
      rw [Finset.mem_range] at hb
      rw [if_neg]
      have : (b : Int) ≤ 4900 := by exact_mod_cast Nat.lt_succ_iff.mp hb
      simp only [minRating, maxRating]
      omega
    rw [hz]
    omega

/-- Witness for C10 at the demo store: rating 5200 gets rank 1. -/
theorem c10_rank_antitone_witness : demoStore.rank 5200 = 1 :=
  (c10_rank_antitone demoStore (newStore_counts_nonneg demoSeeds)).2 5200 (by decide)

/-- Counterexample to C5 as stated: with `totalPages = 0` and `page = 5`,
`clampPage` returns 5, not 1. -/
theorem c5_counterexample : clampPage 5 0 ≠ 1 := by decide

/-- C5 (amended): the page clamp yields a result in `[1, totalPages]` when
`totalPages ≥ 1`; when `totalPages = 0` it only raises the page to 1 when it
is below 1, returning `page` itself for any `page ≥ 1`. -/
theorem c5_clampPage_amended (page totalPages : Int) :
    (1 ≤ totalPages → 1 ≤ clampPage page totalPages ∧ clampPage page totalPages ≤ totalPages) ∧
    (totalPages = 0 → clampPage page totalPages = if page < 1 then 1 else page) := by
  constructor
  · intro h
    simp only [clampPage]
    constructor <;> split_ifs <;> omega
  · intro h
    subst h
    simp only [clampPage]
    split_ifs <;> omega

/-- Witness for C5 (amended) at `page = 7`: with 3 total pages the result is
clamped into `[1, 3]`; with 0 total pages the result is 7. -/
theorem c5_clampPage_amended_witness :
    (1 ≤ clampPage 7 3 ∧ clampPage 7 3 ≤ 3) ∧
    clampPage 7 0 = if (7 : Int) < 1 then 1 else 7 :=
  ⟨(c5_clampPage_amended 7 3).1 (by decide), (c5_clampPage_amended 7 0).2 rfl⟩

/-- C8: updating a user to their current rating leaves the entire store
unchanged — every bucket, back-reference, counter and rating field. -/
theorem c8_update_same_rating_noop (s : Store) (id : Nat) (r : Int)
    (h : s.ratings id = r) : s.updateUserRating id r = s := by
  simp only [Store.updateUserRating]
  rw [if_pos h]

/-- Witness for C8: re-storing alice's rating 1500 returns the demo store. -/
theorem c8_update_same_rating_noop_witness :
    demoStore.ratings 0 = 1500 ∧ demoStore.updateUserRating 0 1500 = demoStore :=
  ⟨by decide, c8_update_same_rating_noop demoStore 0 1500 (by decide)⟩

/-- C9: a query that is all whitespace (so trims to the empty string) makes
`SearchPage` return an empty result list with total 0 — a normal return, not
an error path. -/
theorem c9_whitespace_query_empty (s : Store) (q : List Nat) (page limit : Int)
    (h : ∀ b ∈ q, isSpaceByte b = true) :
    (s.SearchPage q page limit).1 = [] ∧ (s.SearchPage q page limit).2.1 = 0 := by
  have h1 : q.dropWhile isSpaceByte = [] := List.dropWhile_eq_nil_iff.mpr h
  have htrim : trimSpace q = [] := by
    simp [trimSpace, h1]
  have hlow : toLowerBytes (trimSpace q) = [] := by
    simp [htrim, toLowerBytes]
  simp only [Store.SearchPage, hlow]
  simp

/-- Witness for C9 with the query made of a space and a tab. -/
theorem c9_whitespace_query_empty_witness :
    (demoStore.SearchPage [32, 9] 1 20).1 = [] ∧ (demoStore.SearchPage [32, 9] 1 20).2.1 = 0 :=
  c9_whitespace_query_empty demoStore [32, 9] 1 20 (by decide)

theorem searchPage_results_le (s : Store) (q : List Nat) (page L : Int) (hL : 1 ≤ L) :
    (s.SearchPage q page L).1.length ≤ L.toNat := by
  have hL' : ¬ L ≤ 0 := by omega
  simp only [Store.SearchPage, hL', if_false]
  split_ifs <;> simp [List.length_take] <;> omega

/-- C6: the `/search` endpoint clamps the limit into `[1, 200]` (defaulting to
20 on non-positive input) before calling `SearchPage`, so no search response
ever carries more than 200 results. -/
theorem c6_search_limit_clamped (s : Store) (q : List Nat) (page limit : Int) :
    (1 ≤ searchHandlerLimit limit ∧ searchHandlerLimit limit ≤ 200) ∧
    (limit ≤ 0 → searchHandlerLimit limit = 20) ∧
    (s.SearchPage q page (searchHandlerLimit limit)).1.length ≤ 200 := by
  have hb : 1 ≤ searchHandlerLimit limit ∧ searchHandlerLimit limit ≤ 200 := by
    simp only [searchHandlerLimit]
    split_ifs <;> omega
  refine ⟨hb, ?_, ?_⟩
  · intro h
    simp only [searchHandlerLimit]
    split_ifs <;> omega
  · have := searchPage_results_le s q page (searchHandlerLimit limit) hb.1
    omega

/-- Witness for C6: a negative limit falls back to 20, and a concrete search
on the demo store returns at most 200 rows. -/
theorem c6_search_limit_clamped_witness :
    searchHandlerLimit (-3) = 20 ∧
    (demoStore.SearchPage [97] 1 (searchHandlerLimit 1000)).1.length ≤ 200 :=
  ⟨(c6_search_limit_clamped demoStore [97] 1 (-3)).2.1 (by decide),
   (c6_search_limit_clamped demoStore [97] 1 1000).2.2⟩

theorem flatten_chunks (LN : Nat) (_hLN : 1 ≤ LN) :
    ∀ (m : Nat) (xs : List Nat), xs.length ≤ m * LN →
      ((List.range m).map (fun k => (xs.drop (k * LN)).take LN)).flatten = xs := by
  intro m
  induction m with
  | zero =>
    intro xs h
    have hx : xs = [] := List.length_eq_zero.mp (by omega)
    simp [hx]
  | succ m ih =>
    intro xs h
    rw [List.range_succ_eq_map, List.map_cons, List.map_map]
    have hmap : (List.range m).map ((fun k => (xs.drop (k * LN)).take LN) ∘ Nat.succ)
        = (List.range m).map (fun k => ((xs.drop LN).drop (k * LN)).take LN) := by
      apply List.map_eq_map_iff.mpr
      intro k _
      simp only [Function.comp]
      rw [List.drop_drop, Nat.succ_mul, Nat.add_comm (k * LN) LN]
    rw [hmap, List.flatten_cons]
    rw [Nat.succ_mul] at h
    rw [ih (xs.drop LN) (by rw [List.length_drop]; omega)]
    simp only [Nat.zero_mul, List.drop_zero]
    exact List.take_append_drop LN xs

theorem leaderboardPage_eq_chunk (s : Store) (LN : Nat) (hLN : 1 ≤ LN) (k : Nat) :
    s.LeaderboardPage ((k : Int) + 1) (LN : Int)
      = ((s.snapshot.drop (k * LN)).take LN).map s.entryOf := by
  have hLpos : ¬ ((LN : Int) ≤ 0) := by omega
  have hk1 : ¬ ((k : Int) + 1 ≤ 0) := by omega
  simp only [Store.LeaderboardPage, Store.SnapshotIDs]
  rw [if_neg hLpos, if_neg hk1]
  by_cases hlen : s.snapshot.length = 0
  · rw [if_pos hlen]
    have hx : s.snapshot = [] := List.length_eq_zero.mp hlen
    simp [hx]
  · rw [if_neg hlen]
    have hoff : ((k : Int) + 1 - 1) * (LN : Int) = ((k * LN : Nat) : Int) := by push_cast; ring
    rw [hoff]
    by_cases hge : ((k * LN : Nat) : Int) ≥ (s.snapshot.length : Int)
    · rw [if_pos hge]
      have hge' : s.snapshot.length ≤ k * LN := by exact_mod_cast hge
      rw [List.drop_eq_nil_of_le hge']
      simp
    · rw [if_neg hge]
      have hlt : k * LN < s.snapshot.length := by
        by_contra hcon
        exact hge (by exact_mod_cast Nat.le_of_not_lt hcon)
      have hdl : (s.snapshot.drop (k * LN)).length = s.snapshot.length - k * LN := by
        rw [List.length_drop]
      by_cases hover : ((k * LN : Nat) : Int) + (LN : Int) > (s.snapshot.length : Int)
      · rw [if_pos hover]
        have h1 : ((s.snapshot.length : Int) - ((k * LN : Nat) : Int)).toNat
            = s.snapshot.length - k * LN := by push_cast; omega
        rw [h1, Int.toNat_natCast]
        have hover' : s.snapshot.length < k * LN + LN := by exact_mod_cast hover
        rw [List.take_of_length_le (by rw [hdl]), List.take_of_length_le (by rw [hdl]; omega)]
      · rw [if_neg hover]
        have h2 : (((k * LN : Nat) : Int) + (LN : Int) - ((k * LN : Nat) : Int)).toNat = LN := by
          push_cast; omega
        rw [h2, Int.toNat_natCast]

/-- C7: with a published snapshot and no intervening mutation, reading every
leaderboard page with a fixed limit `L ≥ 1` in increasing page order and
concatenating the entries yields exactly the snapshot's users, rendered in
snapshot order. -/
theorem c7_leaderboard_pages_roundtrip (s : Store) (L : Int) (hL : 1 ≤ L) :
    ((List.range (calcTotalPages (s.snapshot.length : Int) L).toNat).map
      (fun (k : Nat) => s.LeaderboardPage ((k : Int) + 1) L)).flatten
      = s.snapshot.map s.entryOf := by
  obtain ⟨LN, rfl⟩ : ∃ LN : Nat, L = (LN : Int) := ⟨L.toNat, (Int.toNat_of_nonneg (by omega)).symm⟩
  have hLN : 1 ≤ LN := by exact_mod_cast hL
  have hpage : (List.range (calcTotalPages (s.snapshot.length : Int) (LN : Int)).toNat).map
      (fun (k : Nat) => s.LeaderboardPage ((k : Int) + 1) (LN : Int))
      = (List.range (calcTotalPages (s.snapshot.length : Int) (LN : Int)).toNat).map
        (fun k => ((s.snapshot.drop (k * LN)).take LN).map s.entryOf) :=
    List.map_eq_map_iff.mpr (fun k _ => leaderboardPage_eq_chunk s LN hLN k)
  rw [hpage]
  have hsplit : (List.range (calcTotalPages (s.snapshot.length : Int) (LN : Int)).toNat).map
      (fun k => ((s.snapshot.drop (k * LN)).take LN).map s.entryOf)
      = ((List.range (calcTotalPages (s.snapshot.length : Int) (LN : Int)).toNat).map
        (fun k => (s.snapshot.drop (k * LN)).take LN)).map (List.map s.entryOf) := by
    rw [List.map_map]
    rfl
  rw [hsplit, ← List.map_flatten]
  congr 1
  apply flatten_chunks LN hLN
  simp only [calcTotalPages]
  by_cases h0 : (s.snapshot.length : Int) ≤ 0 ∨ (LN : Int) ≤ 0
  · rw [if_pos h0]
    have : s.snapshot.length = 0 := by
      rcases h0 with h | h
      · exact_mod_cast (by omega : (s.snapshot.length : Int) = 0)
      · exact absurd h (by omega)
    omega
  · rw [if_neg h0]
    push_neg at h0
    have hdiv := Int.ediv_add_emod ((s.snapshot.length : Int) + (LN : Int) - 1) (LN : Int)
    have hmod0 : 0 ≤ ((s.snapshot.length : Int) + (LN : Int) - 1) % (LN : Int) :=
      Int.emod_nonneg _ (by omega)
    have hmodlt : ((s.snapshot.length : Int) + (LN : Int) - 1) % (LN : Int) < (LN : Int) :=
      Int.emod_lt_of_pos _ (by omega)
    have hqnn : 0 ≤ ((s.snapshot.length : Int) + (LN : Int) - 1) / (LN : Int) :=
      Int.ediv_nonneg (by omega) (by omega)
    have hq : (s.snapshot.length : Int)
        ≤ (((s.snapshot.length : Int) + (LN : Int) - 1) / (LN : Int)) * (LN : Int) := by
      nlinarith [hdiv, hmod0, hmodlt]
    zify
    rw [Int.toNat_of_nonneg hqnn]
    exact hq

/-- Witness for C7: pages of size 2 over the published demo snapshot
concatenate back to the snapshot's rendering. -/
theorem c7_leaderboard_pages_roundtrip_witness :
    ((List.range (calcTotalPages ((demoStoreSnap.snapshot.length : Nat) : Int) 2).toNat).map
      (fun (k : Nat) => demoStoreSnap.LeaderboardPage ((k : Int) + 1) 2)).flatten
      = demoStoreSnap.snapshot.map demoStoreSnap.entryOf :=
  c7_leaderboard_pages_roundtrip demoStoreSnap 2 (by decide)

theorem bnot_true {x : Bool} (h : (!x) = true) : x = false := by
  cases x
  · rfl
  · exact absurd h (by simp)

theorem bnot_false {x : Bool} (h : (!x) = false) : x = true := by
  cases x
  · exact absurd h (by simp)
  · rfl

theorem slice_eq_filter {α : Type} (l : List α) (q : α → Bool) (lo hi : Nat)
    (hlh : lo ≤ hi) (hhn : hi ≤ l.length)
    (hwin : ∀ (i : Nat) (h : i < l.length), ((lo ≤ i ∧ i < hi) ↔ q (l.get ⟨i, h⟩) = true)) :
    (l.drop lo).take (hi - lo) = l.filter q := by
  have hsub : (l.drop lo).drop (hi - lo) = l.drop hi := by
    rw [List.drop_drop]
    congr 1
    omega
  have hdecomp : l = l.take lo ++ ((l.drop lo).take (hi - lo) ++ l.drop hi) := by
    rw [← hsub, List.take_append_drop, List.take_append_drop]
  have hfilter := congrArg (List.filter q) hdecomp
  rw [List.filter_append, List.filter_append] at hfilter
  have h1 : (l.take lo).filter q = [] := by
    apply List.filter_eq_nil_iff.mpr
    intro x hx
    obtain ⟨i, hi', hxi⟩ := List.mem_iff_getElem.mp hx
    have hlen : i < l.length := by
      simp only [List.length_take] at hi'
      omega
    have hilo : i < lo := by
      simp only [List.length_take] at hi'
      omega
    have hxeq : x = l.get ⟨i, hlen⟩ := by
      rw [← hxi, List.getElem_take]
      rfl
    subst hxeq
    intro hq
    exact absurd ((hwin i hlen).mpr hq).1 (by omega)
  have h3 : (l.drop hi).filter q = [] := by
    apply List.filter_eq_nil_iff.mpr
    intro x hx
    obtain ⟨i, hi', hxi⟩ := List.mem_iff_getElem.mp hx
    have hlen : hi + i < l.length := by
      simp only [List.length_drop] at hi'
      omega
    have hxeq : x = l.get ⟨hi + i, hlen⟩ := by
      rw [← hxi, List.getElem_drop]
      rfl
    subst hxeq
    intro hq
    exact absurd ((hwin (hi + i) hlen).mpr hq).2 (by omega)
  have h2 : ((l.drop lo).take (hi - lo)).filter q = (l.drop lo).take (hi - lo) := by
    apply List.filter_eq_self.mpr
    intro x hx
    obtain ⟨i, hi', hxi⟩ := List.mem_iff_getElem.mp hx
    have hmid : lo + i < l.length ∧ lo + i < hi := by
      simp only [List.length_take, List.length_drop] at hi'
      omega
    have hxeq : x = l.get ⟨lo + i, hmid.1⟩ := by
      rw [← hxi, List.getElem_take, List.getElem_drop]
      rfl
    subst hxeq
    exact (hwin (lo + i) hmid.1).mp ⟨by omega, hmid.2⟩
  rw [h1, h2, h3] at hfilter
  simpa using hfilter.symm

/-- C3: for a non-empty prefix `p`, over a username index sorted by
`(usernameLower, id)` whose names are free of the sentinel byte 0xFF, the two
binary searches of `SearchPage` delimit a half-open window `[lo, hi)` that
slices out exactly the entries whose lowercase username starts with `p`,
still listed in ascending `(usernameLower, id)` order, with `hi - lo` equal
to the number of matching users. -/
theorem c3_prefix_window (s : Store) (p : List Nat) (_hp : p ≠ [])
    (hsorted : s.usernameIndex.Pairwise (fun a b =>
      bytesLt a.usernameLower b.usernameLower = true ∨
        (a.usernameLower = b.usernameLower ∧ a.id < b.id)))
    (hfree : ∀ e ∈ s.usernameIndex, ∀ b ∈ e.usernameLower, b < 255) :
    s.searchLow p ≤ s.searchHigh p ∧
    (s.usernameIndex.drop (s.searchLow p)).take (s.searchHigh p - s.searchLow p)
      = s.usernameIndex.filter (fun e => startsWith p e.usernameLower) ∧
    s.searchHigh p - s.searchLow p
      = (s.usernameIndex.filter (fun e => startsWith p e.usernameLower)).length ∧
    (s.usernameIndex.filter (fun e => startsWith p e.usernameLower)).Pairwise (fun a b =>
      bytesLt a.usernameLower b.usernameLower = true ∨
        (a.usernameLower = b.usernameLower ∧ a.id < b.id)) := by
  have hpw := List.pairwise_iff_getElem.mp hsorted
  have hmono : ∀ q : List Nat, ∀ a b : Nat, a ≤ b → b < s.usernameIndex.length →
      (!(bytesLt ((s.usernameIndex.getD a ⟨[], 0⟩).usernameLower) q)) = true →
      (!(bytesLt ((s.usernameIndex.getD b ⟨[], 0⟩).usernameLower) q)) = true := by
    intro q a b hab hbn hfa
    have han : a < s.usernameIndex.length := lt_of_le_of_lt hab hbn
    rw [List.getD_eq_getElem _ _ han] at hfa
    rw [List.getD_eq_getElem _ _ hbn]
    have hfa' := bnot_true hfa
    rcases Nat.eq_or_lt_of_le hab with rfl | hlt
    · simp [hfa']
    · rcases hpw a b han hbn hlt with hx | ⟨he, _⟩
      · cases hq : bytesLt (s.usernameIndex[b].usernameLower) q with
        | false => rfl
        | true =>
          have := bytesLt_trans hx hq
          rw [this] at hfa'
          exact absurd hfa' (by simp)
      · rw [← he, hfa']
        rfl
  have hlospec := sortSearch_spec s.usernameIndex.length
    (fun i => !(bytesLt ((s.usernameIndex.getD i ⟨[], 0⟩).usernameLower) p)) (hmono p)
  have hhispec := sortSearch_spec s.usernameIndex.length
    (fun i => !(bytesLt ((s.usernameIndex.getD i ⟨[], 0⟩).usernameLower) (p ++ [255])))
    (hmono (p ++ [255]))
  obtain ⟨hlo_le, hlo_lt, hlo_ge⟩ := hlospec
  obtain ⟨hhi_le, hhi_lt, hhi_ge⟩ := hhispec
  have hlodef : s.searchLow p = sortSearch s.usernameIndex.length
      (fun i => !(bytesLt ((s.usernameIndex.getD i ⟨[], 0⟩).usernameLower) p)) := rfl
  have hhidef : s.searchHigh p = sortSearch s.usernameIndex.length
      (fun i => !(bytesLt ((s.usernameIndex.getD i ⟨[], 0⟩).usernameLower) (p ++ [255]))) := rfl
  have hlh : s.searchLow p ≤ s.searchHigh p := by
    by_contra hcon
    push_neg at hcon
    have hhin : s.searchHigh p < s.usernameIndex.length := by
      rw [hhidef] at hcon ⊢
      rw [hlodef] at *
      omega
    have h1 := hlo_lt (s.searchHigh p) (by rw [hlodef] at hcon; exact hcon)
    have h2 := hhi_ge (s.searchHigh p) (by rw [hhidef]) hhin
    simp only [List.getD_eq_getElem _ _ hhin] at h1 h2
    have h1' := bnot_false h1
    have h2' := bnot_true h2
    rcases bytesLt_trichotomy (s.usernameIndex[s.searchHigh p].usernameLower) (p ++ [255])
      with hx | hx | hx
    · rw [hx] at h2'; exact absurd h2' (by simp)
    · rw [hx] at h1'
      rw [not_bytesLt_append p [255]] at h1'
      exact absurd h1' (by simp)
    · have := bytesLt_trans hx h1'
      rw [not_bytesLt_append p [255]] at this
      exact absurd this (by simp)
  have hwin : ∀ (i : Nat) (h : i < s.usernameIndex.length),
      ((s.searchLow p ≤ i ∧ i < s.searchHigh p) ↔
        startsWith p (s.usernameIndex[i].usernameLower) = true) := by
    intro i h
    constructor
    · rintro ⟨h1, h2⟩
      have hfp := hlo_ge i (by rw [hlodef] at h1; exact h1) h
      have hfp' := hhi_lt i (by rw [hhidef] at h2; exact h2)
      simp only [List.getD_eq_getElem _ _ h] at hfp hfp'
      exact startsWith_of_window (bnot_true hfp) (bnot_false hfp')
    · intro hsw
      have hkfree : ∀ b ∈ s.usernameIndex[i].usernameLower, b < 255 :=
        hfree _ (List.getElem_mem h)
      have h1 : bytesLt (s.usernameIndex[i].usernameLower) p = false := by
        obtain ⟨r, hr⟩ := startsWith_iff_append.mp hsw
        rw [hr]
        exact not_bytesLt_append p r
      have h2 : bytesLt (s.usernameIndex[i].usernameLower) (p ++ [255]) = true :=
        bytesLt_append_sentinel hsw hkfree
      constructor
      · rw [hlodef]
        by_contra hcon
        push_neg at hcon
        have hx := hlo_lt i hcon
        simp only [List.getD_eq_getElem _ _ h] at hx
        have := bnot_false hx
        rw [h1] at this
        exact absurd this (by simp)
      · rw [hhidef]
        by_contra hcon
        push_neg at hcon
        have hx := hhi_ge i hcon h
        simp only [List.getD_eq_getElem _ _ h] at hx
        have := bnot_true hx
        rw [h2] at this
        exact absurd this (by simp)
  have hslice := slice_eq_filter s.usernameIndex (fun e => startsWith p e.usernameLower)
    (s.searchLow p) (s.searchHigh p) hlh (by rw [hhidef]; exact hhi_le)
    (fun i h => by simpa only [List.get_eq_getElem] using hwin i h)
  refine ⟨hlh, hslice, ?_, List.Pairwise.sublist (List.filter_sublist _) hsorted⟩
  have hlen := congrArg List.length hslice
  rw [List.length_take, List.length_drop] at hlen
  have hhin : s.searchHigh p ≤ s.usernameIndex.length := by rw [hhidef]; exact hhi_le
  omega

/-- Witness for C3 on the demo store with prefix "a": the window is
well-formed and slices out exactly the matching entries. -/
theorem c3_prefix_window_witness :
    demoStore.searchLow [97] ≤ demoStore.searchHigh [97] ∧
    (demoStore.usernameIndex.drop (demoStore.searchLow [97])).take
      (demoStore.searchHigh [97] - demoStore.searchLow [97])
      = demoStore.usernameIndex.filter (fun e => startsWith [97] e.usernameLower) :=
  let h := c3_prefix_window demoStore [97] (by decide) (by decide) (by decide)
  ⟨h.1, h.2.1⟩

theorem swapRemove_length (l : List Nat) (pos : Nat) :
    (swapRemove l pos).length = l.length - 1 := by
  simp only [swapRemove, List.length_take, List.length_set]
  omega

theorem swapRemove_getElem? (l : List Nat) (pos k : Nat) (hpos : pos < l.length) :
    (swapRemove l pos)[k]? =
      if k < l.length - 1 then
        (if pos = k then some (l.getD (l.length - 1) 0) else l[k]?)
      else none := by
  by_cases hk : k < l.length - 1
  · rw [if_pos hk, swapRemove, List.getElem?_take_of_lt hk, List.getElem?_set]
    by_cases hpk : pos = k
    · rw [if_pos hpk, if_pos hpk, if_pos hpos]
    · rw [if_neg hpk, if_neg hpk]
  · rw [if_neg hk]
    apply List.getElem?_eq_none_iff.mpr
    rw [swapRemove_length]
    omega

theorem last_getElem? (l : List Nat) (hne : 0 < l.length) :
    l[l.length - 1]? = some (l.getD (l.length - 1) 0) := by
  rw [List.getD_eq_getElem _ _ (by omega)]
  exact List.getElem?_eq_some.mpr ⟨by omega, rfl⟩

theorem nodup_getElem?_inj {l : List Nat} (hnd : l.Nodup) {i j x : Nat}
    (hi : l[i]? = some x) (hj : l[j]? = some x) : i = j := by
  obtain ⟨hi', hix⟩ := List.getElem?_eq_some.mp hi
  obtain ⟨hj', hjx⟩ := List.getElem?_eq_some.mp hj
  have heq : l.get ⟨i, hi'⟩ = l.get ⟨j, hj'⟩ := by
    simp only [List.get_eq_getElem]
    rw [hix, hjx]
  have := List.nodup_iff_injective_get.mp hnd heq
  simpa using this

theorem swapRemove_mem_of {l : List Nat} {pos : Nat} (hpos : pos < l.length) {x : Nat}
    (hx : x ∈ swapRemove l pos) : x ∈ l := by
  obtain ⟨k, hk, hxk⟩ := List.mem_iff_getElem.mp hx
  have hsome : (swapRemove l pos)[k]? = some x := List.getElem?_eq_some.mpr ⟨hk, hxk⟩
  rw [swapRemove_getElem? l pos k hpos] at hsome
  rw [swapRemove_length] at hk
  rw [if_pos hk] at hsome
  by_cases hpk : pos = k
  · rw [if_pos hpk] at hsome
    have := last_getElem? l (by omega)
    rw [Option.some_inj.mp hsome] at this
    exact List.getElem?_mem this
  · rw [if_neg hpk] at hsome
    exact List.getElem?_mem hsome

theorem swapRemove_not_mem {l : List Nat} {pos x0 : Nat} (hnd : l.Nodup)
    (hid : l[pos]? = some x0) : x0 ∉ swapRemove l pos := by
  have hpos : pos < l.length := by
    obtain ⟨h, _⟩ := List.getElem?_eq_some.mp hid
    exact h
  intro hx
  obtain ⟨k, hk, hxk⟩ := List.mem_iff_getElem.mp hx
  have hsome : (swapRemove l pos)[k]? = some x0 := List.getElem?_eq_some.mpr ⟨hk, hxk⟩
  rw [swapRemove_getElem? l pos k hpos] at hsome
  rw [swapRemove_length] at hk
  rw [if_pos hk] at hsome
  by_cases hpk : pos = k
  · rw [if_pos hpk] at hsome
    have hlast := last_getElem? l (by omega)
    rw [Option.some_inj.mp hsome] at hlast
    have := nodup_getElem?_inj hnd hid hlast
    omega
  · rw [if_neg hpk] at hsome
    exact hpk (nodup_getElem?_inj hnd hid hsome)

theorem swapRemove_nodup {l : List Nat} {pos : Nat} (hnd : l.Nodup)
    (hpos : pos < l.length) : (swapRemove l pos).Nodup := by
  rw [List.nodup_iff_injective_get]
  rintro ⟨k1, h1⟩ ⟨k2, h2⟩ heq
  simp only [List.get_eq_getElem] at heq
  have hs1 : (swapRemove l pos)[k1]? = some ((swapRemove l pos).get ⟨k2, h2⟩) := by
    rw [List.getElem?_eq_some]
    exact ⟨h1, by simpa using heq⟩
  have hs2 : (swapRemove l pos)[k2]? = some ((swapRemove l pos).get ⟨k2, h2⟩) := by
    rw [List.getElem?_eq_some]
    exact ⟨h2, by simp⟩
  rw [swapRemove_length] at h1 h2
  rw [swapRemove_getElem? l pos k1 hpos, if_pos h1] at hs1
  rw [swapRemove_getElem? l pos k2 hpos, if_pos h2] at hs2
  have hk12 : k1 = k2 := by
    by_cases hp1 : pos = k1 <;> by_cases hp2 : pos = k2
    · omega
    · rw [if_pos hp1] at hs1
      rw [if_neg hp2] at hs2
      have hlast := last_getElem? l (by omega)
      rw [Option.some_inj.mp hs1] at hlast
      have := nodup_getElem?_inj hnd hs2 hlast
      omega
    · rw [if_neg hp1] at hs1
      rw [if_pos hp2] at hs2
      have hlast := last_getElem? l (by omega)
      rw [Option.some_inj.mp hs2] at hlast
      have := nodup_getElem?_inj hnd hs1 hlast
      omega
    · rw [if_neg hp1] at hs1
      rw [if_neg hp2] at hs2
      exact nodup_getElem?_inj hnd hs1 hs2
  exact Fin.ext hk12

theorem updateUserRating_fields (s : Store) (x : Nat) (rNew : Int)
    (hne : ¬ s.ratings x = rNew)
    (hdiff : (rNew - minRating).toNat ≠ (s.ratings x - minRating).toNat) :
    s.updateUserRating x rNew =
      { s with
        ratings := fun j => if j = x then rNew else s.ratings j,
        ratingBuckets := fun b =>
          if b = (rNew - minRating).toNat
            then s.ratingBuckets ((rNew - minRating).toNat) ++ [x]
          else if b = (s.ratings x - minRating).toNat
            then swapRemove (s.ratingBuckets ((s.ratings x - minRating).toNat)) (s.bucketIndex x)
          else s.ratingBuckets b,
        bucketIndex := fun j =>
          if j = x then (s.ratingBuckets ((rNew - minRating).toNat)).length
          else if j = (s.ratingBuckets ((s.ratings x - minRating).toNat)).getD
              ((s.ratingBuckets ((s.ratings x - minRating).toNat)).length - 1) 0
            then s.bucketIndex x
          else s.bucketIndex j,
        ratingCounts := fun b =>
          if b = (rNew - minRating).toNat then s.ratingCounts b + 1
          else if b = (s.ratings x - minRating).toNat then s.ratingCounts b - 1
          else s.ratingCounts b } := by
  simp only [Store.updateUserRating]
  rw [if_neg hne]
  simp only [Store.mk.injEq]
  refine ⟨trivial, trivial, trivial, trivial, ?_, trivial, ?_, ?_, trivial⟩
  · funext b
    by_cases h1 : b = (rNew - minRating).toNat
    · rw [if_pos h1, if_pos h1]
      rw [if_neg (show ¬ b = (s.ratings x - minRating).toNat by rw [h1]; exact hdiff)]
    · rw [if_neg h1, if_neg h1]
  · funext b
    by_cases h1 : b = (rNew - minRating).toNat
    · rw [if_pos h1, if_pos h1]
      rw [if_neg hdiff]
    · rw [if_neg h1, if_neg h1]
      by_cases h2 : b = (s.ratings x - minRating).toNat
      · rw [if_pos h2, if_pos h2]
        rfl
      · rw [if_neg h2, if_neg h2]
  · funext j
    by_cases h1 : j = x
    · rw [if_pos h1, if_pos h1]
      rw [if_neg hdiff]
    · rw [if_neg h1, if_neg h1]

theorem sum_bump (f : Nat → Int) (n i : Nat) (hi : i < n) (c : Int) :
    ∑ b in Finset.range n, (if b = i then f b + c else f b)
      = (∑ b in Finset.range n, f b) + c := by
  have hpt : ∀ b, (if b = i then f b + c else f b) = f b + (if b = i then c else 0) := by
    intro b
    split_ifs <;> simp
  rw [Finset.sum_congr rfl (fun b _ => hpt b), Finset.sum_add_distrib]
  congr 1
  rw [Finset.sum_eq_single i]
  · simp
  · intro b _ hb
    exact if_neg hb
  · intro hcon
    exact absurd (Finset.mem_range.mpr hi) hcon

theorem seedStep_inv {st : Store} {k : Nat} (seed : SeedUser) (h : SeedInv st k) :
    SeedInv (seedStep st k seed) (k + 1) := by
  have hcl : minRating ≤ clampRating seed.rating := clampRating_lb _
  have hcu : clampRating seed.rating ≤ maxRating := clampRating_ub _
  have hrlt : (clampRating seed.rating - minRating).toNat < numBuckets := by
    simp only [minRating, maxRating, numBuckets] at *
    omega
  have hkmem : ∀ b, k ∉ st.ratingBuckets b := by
    intro b hk
    exact absurd (h.bucket_elems b k hk).1 (lt_irrefl k)
  refine ⟨?_, ?_, ?_, ?_, ?_, ?_, ?_, ?_⟩
  · intro id0 hid
    simp only [seedStep]
    by_cases h0 : id0 = k
    · rw [if_pos h0]
      exact hcl
    · rw [if_neg h0]
      exact h.rating_lb id0 (by omega)
  · intro id0 hid
    simp only [seedStep]
    by_cases h0 : id0 = k
    · rw [if_pos h0]
      exact hcu
    · rw [if_neg h0]
      exact h.rating_ub id0 (by omega)
  · intro id0 hid
    by_cases h0 : id0 = k
    · rw [h0]
      simp [seedStep, bIdx, List.getElem?_concat_length]
    · have hlt : id0 < k := by omega
      have hm := h.bucket_mem id0 hlt
      have hb0 : bIdx (seedStep st k seed) id0 = bIdx st id0 := by
        simp only [seedStep, bIdx]
        rw [if_neg h0]
      rw [hb0]
      simp only [seedStep]
      rw [if_neg h0]
      by_cases hb : bIdx st id0 = (clampRating seed.rating - minRating).toNat
      · rw [if_pos hb]
        have hpos : st.bucketIndex id0 < (st.ratingBuckets (bIdx st id0)).length := by
          obtain ⟨hp, _⟩ := List.getElem?_eq_some.mp hm
          exact hp
        rw [← hb, List.getElem?_append_left hpos]
        exact hm
      · rw [if_neg hb]
        exact hm
  · intro b y hy
    simp only [seedStep] at hy
    by_cases hb : b = (clampRating seed.rating - minRating).toNat
    · rw [if_pos hb] at hy
      rcases List.mem_append.mp hy with hy | hy
      · obtain ⟨hlt, hbi⟩ := h.bucket_elems _ y hy
        refine ⟨by omega, ?_⟩
        simp only [seedStep, bIdx]
        rw [if_neg (by omega : ¬ y = k)]
        rw [hb]
        exact hbi
      · have hyk : y = k := by simpa using hy
        refine ⟨by omega, ?_⟩
        rw [hyk, hb]
        simp [seedStep, bIdx]
    · rw [if_neg hb] at hy
      obtain ⟨hlt, hbi⟩ := h.bucket_elems b y hy
      refine ⟨by omega, ?_⟩
      simp only [seedStep, bIdx]
      rw [if_neg (by omega : ¬ y = k)]
      exact hbi
  · intro b
    simp only [seedStep]
    by_cases hb : b = (clampRating seed.rating - minRating).toNat
    · rw [if_pos hb]
      rw [List.nodup_append]
      exact ⟨h.bucket_nodup _, List.nodup_singleton k, by
        intro y hy hk
        have : y = k := by simpa using hk
        subst this
        exact hkmem _ hy⟩
    · rw [if_neg hb]
      exact h.bucket_nodup b
  · intro b
    simp only [seedStep]
    by_cases hb : b = (clampRating seed.rating - minRating).toNat
    · rw [if_pos hb, if_pos hb, hb, h.counts_eq _, List.length_append]
      simp
    · rw [if_neg hb, if_neg hb]
      exact h.counts_eq b
  · intro b hb
    simp only [seedStep]
    rw [if_neg (by omega : ¬ b = (clampRating seed.rating - minRating).toNat)]
    exact h.buckets_out b hb
  · simp only [seedStep]
    have hpt : ∀ b, (((if b = (clampRating seed.rating - minRating).toNat
        then st.ratingBuckets ((clampRating seed.rating - minRating).toNat) ++ [k]
        else st.ratingBuckets b).length : Nat) : Int)
        = if b = (clampRating seed.rating - minRating).toNat
          then ((st.ratingBuckets b).length : Int) + 1 else ((st.ratingBuckets b).length : Int) := by
      intro b
      by_cases hb : b = (clampRating seed.rating - minRating).toNat
      · rw [if_pos hb, if_pos hb, hb, List.length_append]
        simp
      · rw [if_neg hb, if_neg hb]

    rw [Finset.sum_congr rfl (fun b _ => hpt b),
      sum_bump (fun b => ((st.ratingBuckets b).length : Int)) numBuckets _ hrlt 1,
      h.total_eq]
    push_cast
    ring

theorem seedLoop_inv : ∀ (seeds : List SeedUser) (st : Store) (k : Nat),
    SeedInv st k → SeedInv (seedLoop st k seeds) (k + seeds.length) := by
  intro seeds
  induction seeds with
  | nil =>
    intro st k h
    simpa [seedLoop] using h
  | cons seed rest ih =>
    intro st k h
    have hstep := ih (seedStep st k seed) (k + 1) (seedStep_inv seed h)
    have harith : k + 1 + rest.length = k + (seed :: rest).length := by
      simp [List.length_cons]
      omega
    rw [harith] at hstep
    exact hstep

theorem seedLoop_totalUsers : ∀ (seeds : List SeedUser) (st : Store) (k : Nat),
    (seedLoop st k seeds).totalUsers = st.totalUsers := by
  intro seeds
  induction seeds with
  | nil => intro st k; rfl
  | cons seed rest ih =>
    intro st k
    show (seedLoop (seedStep st k seed) (k + 1) rest).totalUsers = st.totalUsers
    rw [ih]
    rfl

theorem newStore_inv (seeds : List SeedUser) : StoreInv (NewStore seeds) := by
  have hbase : SeedInv ({ users := fun _ => [],
                          ratings := fun _ => 0,
                          usernameLower := fun _ => [],
                          usernameIndex := [],
                          ratingCounts := fun _ => 0,
                          totalUsers := seeds.length,
                          ratingBuckets := fun _ => [],
                          bucketIndex := fun _ => 0,
                          snapshot := [] } : Store) 0 := by
    refine ⟨?_, ?_, ?_, ?_, ?_, ?_, ?_, ?_⟩
    · intro id0 h; omega
    · intro id0 h; omega
    · intro id0 h; omega
    · intro b id0 h; simp at h
    · intro b; simp
    · intro b; simp
    · intro b _; rfl
    · simp
  have h := seedLoop_inv seeds _ 0 hbase
  rw [Nat.zero_add] at h
  have htu : (NewStore seeds).totalUsers = seeds.length := by
    show (seedLoop _ 0 seeds).totalUsers = seeds.length
    rw [seedLoop_totalUsers]
  refine ⟨?_, ?_, ?_, ?_, ?_, ?_, ?_, ?_⟩
  · intro id0 hid
    rw [htu] at hid
    exact h.rating_lb id0 hid
  · intro id0 hid
    rw [htu] at hid
    exact h.rating_ub id0 hid
  · intro id0 hid
    rw [htu] at hid
    exact h.bucket_mem id0 hid
  · intro b id0 hmem
    obtain ⟨hlt, hbi⟩ := h.bucket_elems b id0 hmem
    exact ⟨by rw [htu]; exact hlt, hbi⟩
  · exact h.bucket_nodup
  · exact h.counts_eq
  · exact h.buckets_out
  · rw [htu]
    exact h.total_eq

theorem storeInv_update (s s2 : Store) (hs : StoreInv s)
    (x : Nat) (rNew : Int) (hx : x < s.totalUsers)
    (h1 : minRating ≤ rNew) (h2 : rNew ≤ maxRating)
    (hneq : ¬ s.ratings x = rNew)
    (oldIdx newIdx lastID : Nat)
    (hoi : oldIdx = (s.ratings x - minRating).toNat)
    (hni : newIdx = (rNew - minRating).toNat)
    (hlast : lastID = (s.ratingBuckets oldIdx).getD ((s.ratingBuckets oldIdx).length - 1) 0)
    (hratings : s2.ratings = fun j => if j = x then rNew else s.ratings j)
    (hbuckets : s2.ratingBuckets = fun b =>
      if b = newIdx then s.ratingBuckets newIdx ++ [x]
      else if b = oldIdx then swapRemove (s.ratingBuckets oldIdx) (s.bucketIndex x)
      else s.ratingBuckets b)
    (hindex : s2.bucketIndex = fun j =>
      if j = x then (s.ratingBuckets newIdx).length
      else if j = lastID then s.bucketIndex x
      else s.bucketIndex j)
    (hcounts : s2.ratingCounts = fun b =>
      if b = newIdx then s.ratingCounts b + 1
      else if b = oldIdx then s.ratingCounts b - 1
      else s.ratingCounts b)
    (htotal : s2.totalUsers = s.totalUsers) :
    StoreInv s2 := by
  have hol := hs.rating_lb x hx
  have hou := hs.rating_ub x hx
  have hdiff : newIdx ≠ oldIdx := by
    rw [hoi, hni]
    simp only [minRating] at *
    omega
  have holdlt : oldIdx < numBuckets := by
    rw [hoi]
    simp only [minRating, maxRating, numBuckets] at *
    omega
  have hnewlt : newIdx < numBuckets := by
    rw [hni]
    simp only [minRating, maxRating, numBuckets] at *
    omega
  have hbx : bIdx s x = oldIdx := by
    rw [hoi]
    rfl
  have hmemx : (s.ratingBuckets oldIdx)[s.bucketIndex x]? = some x := by
    have := hs.bucket_mem x hx
    rwa [hbx] at this
  obtain ⟨hposlt, hgetx⟩ := List.getElem?_eq_some.mp hmemx
  have hlastSome : (s.ratingBuckets oldIdx)[(s.ratingBuckets oldIdx).length - 1]?
      = some lastID := by
    rw [hlast]
    exact last_getElem? _ (by omega)
  have hlastMem : lastID ∈ s.ratingBuckets oldIdx := List.getElem?_mem hlastSome
  have hlastLt : lastID < s.totalUsers := (hs.bucket_elems _ _ hlastMem).1
  have hlastIdx : bIdx s lastID = oldIdx := (hs.bucket_elems _ _ hlastMem).2
  have hxnew : x ∉ s.ratingBuckets newIdx := by
    intro hm
    have := (hs.bucket_elems _ _ hm).2
    rw [hbx] at this
    exact hdiff this.symm
  have hratings_ne : ∀ j, j ≠ x → s2.ratings j = s.ratings j := by
    intro j hj
    rw [hratings]
    simp [hj]
  have hratings_x : s2.ratings x = rNew := by
    rw [hratings]
    simp
  have hbIdx_ne : ∀ j, j ≠ x → bIdx s2 j = bIdx s j := by
    intro j hj
    unfold bIdx
    rw [hratings_ne j hj]
  have hbIdx_x : bIdx s2 x = newIdx := by
    unfold bIdx
    rw [hratings_x, hni]
  refine ⟨?_, ?_, ?_, ?_, ?_, ?_, ?_, ?_⟩
  · intro j hj
    rw [htotal] at hj
    by_cases hjx : j = x
    · rw [hjx, hratings_x]
      exact h1
    · rw [hratings_ne j hjx]
      exact hs.rating_lb j hj
  · intro j hj
    rw [htotal] at hj
    by_cases hjx : j = x
    · rw [hjx, hratings_x]
      exact h2
    · rw [hratings_ne j hjx]
      exact hs.rating_ub j hj
  · intro j hj
    rw [htotal] at hj
    by_cases hjx : j = x
    · rw [hjx, hbIdx_x]
      simp only [hbuckets, hindex]
      rw [if_pos trivial, if_pos trivial]
      exact List.getElem?_concat_length _ _
    · by_cases hjl : j = lastID
      · have hlx : lastID ≠ x := by rw [← hjl]; exact hjx
        rw [hjl, hbIdx_ne lastID hlx, hlastIdx]
        simp only [hbuckets, hindex]
        rw [if_neg hlx, if_pos trivial, if_neg (fun hc => hdiff hc.symm), if_pos trivial]
        have hpn : s.bucketIndex x ≠ (s.ratingBuckets oldIdx).length - 1 := by
          intro hc
          rw [hc] at hmemx
          rw [hmemx] at hlastSome
          exact hlx (Option.some_inj.mp hlastSome).symm
        rw [swapRemove_getElem? _ _ _ hposlt, if_pos (by omega), if_pos rfl, ← hlast]
      · have hm := hs.bucket_mem j hj
        rw [hbIdx_ne j hjx]
        simp only [hbuckets, hindex]
        rw [if_neg hjx, if_neg hjl]
        by_cases hb0 : bIdx s j = newIdx
        · rw [if_pos hb0]
          rw [hb0] at hm
          obtain ⟨hjpos, _⟩ := List.getElem?_eq_some.mp hm
          rw [List.getElem?_append_left hjpos]
          exact hm
        · rw [if_neg hb0]
          by_cases hb1 : bIdx s j = oldIdx
          · rw [if_pos hb1]
            rw [hb1] at hm
            obtain ⟨hjpos, _⟩ := List.getElem?_eq_some.mp hm
            have hne1 : s.bucketIndex x ≠ s.bucketIndex j := by
              intro hc
              rw [← hc] at hm
              rw [hmemx] at hm
              exact hjx (Option.some_inj.mp hm).symm
            have hne2 : s.bucketIndex j ≠ (s.ratingBuckets oldIdx).length - 1 := by
              intro hc
              rw [hc] at hm
              rw [hlastSome] at hm
              exact hjl (Option.some_inj.mp hm).symm
            rw [swapRemove_getElem? _ _ _ hposlt, if_pos (by omega), if_neg hne1]
            exact hm
          · rw [if_neg hb1]
            exact hm
  · intro b y hy
    simp only [hbuckets] at hy
    by_cases hbn : b = newIdx
    · rw [if_pos hbn] at hy
      rcases List.mem_append.mp hy with hyo | hyx
      · obtain ⟨hylt, hyb⟩ := hs.bucket_elems _ _ hyo
        have hyx' : y ≠ x := fun hc => hxnew (hc ▸ hyo)
        rw [htotal, hbIdx_ne y hyx', hbn]
        exact ⟨hylt, hyb⟩
      · have : y = x := by simpa using hyx
        rw [this, htotal, hbIdx_x, hbn]
        exact ⟨hx, rfl⟩
    · rw [if_neg hbn] at hy
      by_cases hbo : b = oldIdx
      · rw [if_pos hbo] at hy
        have hyo : y ∈ s.ratingBuckets oldIdx := swapRemove_mem_of hposlt hy
        obtain ⟨hylt, hyb⟩ := hs.bucket_elems _ _ hyo
        have hyx' : y ≠ x := by
          intro hc
          rw [hc] at hy
          exact swapRemove_not_mem (hs.bucket_nodup oldIdx) hmemx hy
        rw [htotal, hbIdx_ne y hyx', hbo]
        exact ⟨hylt, hyb⟩
      · rw [if_neg hbo] at hy
        obtain ⟨hylt, hyb⟩ := hs.bucket_elems _ _ hy
        have hyx' : y ≠ x := by
          intro hc
          rw [hc] at hyb
          rw [hbx] at hyb
          exact hbo hyb.symm
        rw [htotal, hbIdx_ne y hyx']
        exact ⟨hylt, hyb⟩
  · intro b
    simp only [hbuckets]
    by_cases hbn : b = newIdx
    · rw [if_pos hbn]
      rw [List.nodup_append]
      refine ⟨hs.bucket_nodup _, List.nodup_singleton x, ?_⟩
      intro y hy hyx
      have : y = x := by simpa using hyx
      rw [this] at hy
      exact hxnew hy
    · rw [if_neg hbn]
      by_cases hbo : b = oldIdx
      · rw [if_pos hbo]
        exact swapRemove_nodup (hs.bucket_nodup oldIdx) hposlt
      · rw [if_neg hbo]
        exact hs.bucket_nodup b
  · intro b
    simp only [hbuckets, hcounts]
    by_cases hbn : b = newIdx
    · rw [if_pos hbn, if_pos hbn, hbn, hs.counts_eq newIdx, List.length_append]
      simp
    · rw [if_neg hbn, if_neg hbn]
      by_cases hbo : b = oldIdx
      · rw [if_pos hbo, if_pos hbo, hbo, hs.counts_eq oldIdx, swapRemove_length]
        omega
      · rw [if_neg hbo, if_neg hbo]
        exact hs.counts_eq b
  · intro b hb
    simp only [hbuckets]
    rw [if_neg (by omega : ¬ b = newIdx), if_neg (by omega : ¬ b = oldIdx)]
    exact hs.buckets_out b hb
  · simp only [hbuckets, htotal]
    have hpt : ∀ b, (((if b = newIdx then s.ratingBuckets newIdx ++ [x]
        else if b = oldIdx then swapRemove (s.ratingBuckets oldIdx) (s.bucketIndex x)
        else s.ratingBuckets b).length : Nat) : Int)
        = if b = newIdx
            then (if b = oldIdx then ((s.ratingBuckets b).length : Int) + (-1)
              else ((s.ratingBuckets b).length : Int)) + 1
            else (if b = oldIdx then ((s.ratingBuckets b).length : Int) + (-1)
              else ((s.ratingBuckets b).length : Int)) := by
      intro b
      by_cases hbn : b = newIdx
      · rw [if_pos hbn, if_pos hbn, if_neg (by rw [hbn]; exact hdiff), hbn, List.length_append]
        simp
      · rw [if_neg hbn, if_neg hbn]
        by_cases hbo : b = oldIdx
        · rw [if_pos hbo, if_pos hbo, hbo, swapRemove_length]
          omega
        · rw [if_neg hbo, if_neg hbo]
    rw [Finset.sum_congr rfl (fun b _ => hpt b),
      sum_bump _ numBuckets newIdx hnewlt 1,
      sum_bump (fun b => ((s.ratingBuckets b).length : Int)) numBuckets oldIdx holdlt (-1),
      hs.total_eq]
    ring

theorem update_inv {s : Store} (hs : StoreInv s) {x : Nat} {rNew : Int}
    (hx : x < s.totalUsers) (h1 : minRating ≤ rNew) (h2 : rNew ≤ maxRating) :
    StoreInv (s.updateUserRating x rNew) := by
  by_cases heq : s.ratings x = rNew
  · simp only [Store.updateUserRating]
    rw [if_pos heq]
    exact hs
  · have hol := hs.rating_lb x hx
    have hou := hs.rating_ub x hx
    have hdiff : (rNew - minRating).toNat ≠ (s.ratings x - minRating).toNat := by
      simp only [minRating] at *
      omega
    rw [updateUserRating_fields s x rNew heq hdiff]
    exact storeInv_update s _ hs x rNew hx h1 h2 heq _ _ _ rfl rfl rfl rfl rfl rfl rfl rfl

theorem reachable_inv {s : Store} (h : Reachable s) : StoreInv s := by
  induction h with
  | seed seeds => exact newStore_inv seeds
  | step id r _ hid hr1 hr2 ih => exact update_inv ih hid hr1 hr2

/-- C4: a valid `updateUserRating` call (id in range, new rating in
[100, 5000]) preserves the store invariants — each id in exactly one bucket,
at its recorded back-reference; counters equal to bucket lengths; counters
summing to the user count — and leaves the population size unchanged. -/
theorem c4_update_preserves_invariants (s : Store) (id : Nat) (rNew : Int)
    (hs : StoreInv s) (hid : id < s.totalUsers)
    (h1 : minRating ≤ rNew) (h2 : rNew ≤ maxRating) :
    StoreInv (s.updateUserRating id rNew) ∧
    ∑ b in Finset.range numBuckets, (s.updateUserRating id rNew).ratingCounts b
      = ((s.updateUserRating id rNew).totalUsers : Int) ∧
    (s.updateUserRating id rNew).totalUsers = s.totalUsers := by
  have h := update_inv hs hid h1 h2
  refine ⟨h, ?_, ?_⟩
  · rw [Finset.sum_congr rfl (fun b _ => h.counts_eq b)]
    exact h.total_eq
  · simp only [Store.updateUserRating]
    split_ifs <;> rfl

/-- Witness for C4: moving alice (id 0) to rating 2000 keeps the demo store's
invariants. -/
theorem c4_update_preserves_invariants_witness :
    StoreInv (demoStore.updateUserRating 0 2000) :=
  (c4_update_preserves_invariants demoStore 0 2000 (newStore_inv demoSeeds) (by decide)
    (by decide) (by decide)).1

instance (s : Store) : IsTotal Nat s.bucketLe := ⟨by
  intro a b
  unfold Store.bucketLe Store.bucketLeB
  rcases bytesLt_trichotomy (s.usernameLower a) (s.usernameLower b) with h | h | h
  · left
    simp [bytesLt_asymm h]
  · left
    simp [h, bytesLt_irrefl]
  · right
    simp [bytesLt_asymm h]⟩

instance (s : Store) : IsTrans Nat s.bucketLe := ⟨by
  intro a b c hab hbc
  unfold Store.bucketLe Store.bucketLeB at *
  have hab' := bnot_true hab
  have hbc' := bnot_true hbc
  rcases bytesLt_trichotomy (s.usernameLower c) (s.usernameLower a) with h | h | h
  · rcases bytesLt_trichotomy (s.usernameLower a) (s.usernameLower b) with h2 | h2 | h2
    · rw [bytesLt_trans h h2] at hbc'
      exact absurd hbc' (by simp)
    · rw [h2] at h
      rw [h] at hbc'
      exact absurd hbc' (by simp)
    · rw [h2] at hab'
      exact absurd hab' (by simp)
  · rw [h]
    simp [bytesLt_irrefl]
  · simp [bytesLt_asymm h]⟩

theorem snapshotChunk_perm (s : Store) (b : Nat) :
    (s.snapshotChunk b).Perm (s.ratingBuckets b) := by
  unfold Store.snapshotChunk
  by_cases h : (s.ratingBuckets b).length > 1
  · rw [if_pos h]
    exact List.perm_insertionSort _ _
  · rw [if_neg h]

theorem snapshotChunk_sorted (s : Store) (b : Nat) :
    (s.snapshotChunk b).Pairwise s.bucketLe := by
  unfold Store.snapshotChunk
  by_cases h : (s.ratingBuckets b).length > 1
  · rw [if_pos h]
    exact List.sorted_insertionSort _ _
  · rw [if_neg h]
    have hlen : (s.ratingBuckets b).length ≤ 1 := by omega
    revert hlen
    generalize s.ratingBuckets b = l
    intro hlen
    cases l with
    | nil => exact List.Pairwise.nil
    | cons a t =>
      cases t with
      | nil => simp
      | cons c t2 => simp at hlen

theorem rating_of_mem_bucket {s : Store} (hs : StoreInv s) {b x : Nat}
    (hx : x ∈ s.ratingBuckets b) : s.ratings x = minRating + (b : Int) := by
  obtain ⟨hlt, hbi⟩ := hs.bucket_elems b x hx
  have h1 := hs.rating_lb x hlt
  unfold bIdx at hbi
  simp only [minRating] at *
  omega

theorem flatten_map_perm (L : List Nat) (f g : Nat → List Nat)
    (h : ∀ b ∈ L, (f b).Perm (g b)) :
    ((L.map f).flatten).Perm ((L.map g).flatten) := by
  induction L with
  | nil => rfl
  | cons a t ih =>
    simp only [List.map_cons, List.flatten_cons]
    exact (h a (List.mem_cons_self a t)).append
      (ih (fun b hb => h b (List.mem_cons_of_mem _ hb)))

theorem sum_map_single {α : Type} (l : List α) (f : α → Nat) (i : α) (hnd : l.Nodup)
    (hi : i ∈ l) (hz : ∀ j ∈ l, j ≠ i → f j = 0) : (l.map f).sum = f i := by
  induction l with
  | nil => cases hi
  | cons a t ih =>
    have hat := List.nodup_cons.mp hnd
    rcases List.mem_cons.mp hi with rfl | hit
    · simp only [List.map_cons, List.sum_cons]
      have hzt : ∀ y ∈ t.map f, y = 0 := by
        intro y hy
        obtain ⟨j, hj, rfl⟩ := List.mem_map.mp hy
        refine hz j (List.mem_cons_of_mem _ hj) ?_
        rintro rfl
        exact hat.1 hj
      rw [List.sum_eq_zero hzt]
      omega
    · have ha0 : f a = 0 := hz a (List.mem_cons_self _ _) (by rintro rfl; exact hat.1 hit)
      simp only [List.map_cons, List.sum_cons, ha0, Nat.zero_add]
      exact ih hat.2 hit (fun j hj hji => hz j (List.mem_cons_of_mem _ hj) hji)

theorem buildSnapshot_perm {s : Store} (hs : StoreInv s) :
    (s.buildSnapshot).Perm (List.range s.totalUsers) := by
  have h1 : (s.buildSnapshot).Perm
      ((((List.range numBuckets).reverse).map s.ratingBuckets).flatten) :=
    flatten_map_perm _ _ _ (fun b _ => snapshotChunk_perm s b)
  refine h1.trans (List.perm_iff_count.mpr ?_)
  intro x
  rw [List.count_flatten, List.map_map]
  by_cases hx : x < s.totalUsers
  · rw [List.count_eq_one_of_mem (List.nodup_range _) (List.mem_range.mpr hx)]
    have hb := hs.bucket_mem x hx
    have hxmem : x ∈ s.ratingBuckets (bIdx s x) := List.getElem?_mem hb
    have hblt : bIdx s x < numBuckets := by
      have h1 := hs.rating_lb x hx
      have h2 := hs.rating_ub x hx
      unfold bIdx
      simp only [minRating, maxRating, numBuckets] at *
      omega
    rw [sum_map_single _ _ (bIdx s x)
      (by rw [List.nodup_reverse]; exact List.nodup_range numBuckets)
      (by rw [List.mem_reverse]; exact List.mem_range.mpr hblt)
      ?_]
    · exact List.count_eq_one_of_mem (hs.bucket_nodup _) hxmem
    · intro j _ hji
      simp only [Function.comp]
      apply List.count_eq_zero.mpr
      intro hmem
      exact hji (hs.bucket_elems j x hmem).2.symm
  · rw [List.count_eq_zero.mpr (fun hc => hx (List.mem_range.mp hc))]
    apply List.sum_eq_zero
    intro y hy
    obtain ⟨b, _, rfl⟩ := List.mem_map.mp hy
    simp only [Function.comp]
    apply List.count_eq_zero.mpr
    intro hmem
    exact hx (hs.bucket_elems b x hmem).1

theorem buildSnapshot_sorted {s : Store} (hs : StoreInv s) :
    (s.buildSnapshot).Pairwise (snapLe s) := by
  unfold Store.buildSnapshot
  rw [List.pairwise_flatten]
  constructor
  · intro l hl
    obtain ⟨b, _, rfl⟩ := List.mem_map.mp hl
    refine List.Pairwise.imp_of_mem ?_ (snapshotChunk_sorted s b)
    intro a c ha hc hr
    have hamem : a ∈ s.ratingBuckets b := ((snapshotChunk_perm s b).mem_iff).mp ha
    have hcmem : c ∈ s.ratingBuckets b := ((snapshotChunk_perm s b).mem_iff).mp hc
    right
    refine ⟨by rw [rating_of_mem_bucket hs hamem, rating_of_mem_bucket hs hcmem], ?_⟩
    exact bnot_true hr
  · rw [List.pairwise_map, List.pairwise_reverse]
    refine List.Pairwise.imp ?_ (List.pairwise_lt_range numBuckets)
    intro b1 b2 hb12 x hx y hy
    have hxmem : x ∈ s.ratingBuckets b2 := ((snapshotChunk_perm s b2).mem_iff).mp hx
    have hymem : y ∈ s.ratingBuckets b1 := ((snapshotChunk_perm s b1).mem_iff).mp hy
    left
    rw [rating_of_mem_bucket hs hxmem, rating_of_mem_bucket hs hymem]
    have : (b1 : Int) < (b2 : Int) := by exact_mod_cast hb12
    omega

/-- Counterexample to C2 as stated: seeding usernames "A", "a", "b" (distinct
display names, colliding lowercase forms) all at rating 1500, then moving
user 0 to 1600 and back to 1500 — two valid updates — yields a reachable
store whose snapshot lists the two users with equal lowercase name in
descending id order, so the snapshot is not sorted by
(descending rating, ascending usernameLower, ascending id). -/
theorem flatten_map_single {α : Type} (l : List Nat) (f : Nat → List α) (i : Nat)
    (hnd : l.Nodup) (hi : i ∈ l) (hz : ∀ j ∈ l, j ≠ i → f j = []) :
    (l.map f).flatten = f i := by
  induction l with
  | nil => cases hi
  | cons a t ih =>
    have hat := List.nodup_cons.mp hnd
    rcases List.mem_cons.mp hi with rfl | hit
    · simp only [List.map_cons, List.flatten_cons]
      have hzt : (t.map f).flatten = [] := by
        apply List.flatten_eq_nil_iff.mpr
        intro y hy
        obtain ⟨j, hj, rfl⟩ := List.mem_map.mp hy
        refine hz j (List.mem_cons_of_mem _ hj) ?_
        rintro rfl
        exact hat.1 hj
      rw [hzt, List.append_nil]
    · have ha0 : f a = [] := hz a (List.mem_cons_self _ _) (by rintro rfl; exact hat.1 hit)
      simp only [List.map_cons, List.flatten_cons, ha0, List.nil_append]
      exact ih hat.2 hit (fun j hj hji => hz j (List.mem_cons_of_mem _ hj) hji)

theorem buildSnapshot_of_single {s : Store} {b0 : Nat} (hb0 : b0 < numBuckets)
    (hz : ∀ j, j ≠ b0 → s.ratingBuckets j = []) :
    s.buildSnapshot = s.snapshotChunk b0 := by
  unfold Store.buildSnapshot
  apply flatten_map_single _ _ b0
    (by rw [List.nodup_reverse]; exact List.nodup_range numBuckets)
    (by rw [List.mem_reverse]; exact List.mem_range.mpr hb0)
  intro j _ hji
  have hj := hz j hji
  simp [Store.snapshotChunk, hj]

/-- Counterexample to C2 as stated: seeding usernames "A", "a", "b" (distinct
display names, colliding lowercase forms) all at rating 1500, then moving
user 0 to 1600 and back to 1500 — two valid updates — yields a reachable
store whose snapshot lists the two users with equal lowercase name in
descending id order, so the snapshot is not sorted by
(descending rating, ascending usernameLower, ascending id). -/
theorem c2_counterexample :
    Reachable dupStore ∧ ¬ (dupStore.buildSnapshot).Pairwise (snapLex dupStore) := by
  have hreach : Reachable dupStore :=
    Reachable.step 0 1500
      (Reachable.step 0 1600 (Reachable.seed dupSeeds) (by decide) (by decide) (by decide))
      (by decide) (by decide) (by decide)
  refine ⟨hreach, ?_⟩
  have hs := reachable_inv hreach
  have htu : dupStore.totalUsers = 3 := by decide
  have hz : ∀ j, j ≠ 1400 → dupStore.ratingBuckets j = [] := by
    intro j hj
    by_contra hne
    obtain ⟨x, hx⟩ := List.exists_mem_of_ne_nil _ hne
    obtain ⟨hx3, hbx⟩ := hs.bucket_elems j x hx
    rw [htu] at hx3
    interval_cases x
    · exact hj (((by decide : bIdx dupStore 0 = 1400).symm.trans hbx).symm)
    · exact hj (((by decide : bIdx dupStore 1 = 1400).symm.trans hbx).symm)
    · exact hj (((by decide : bIdx dupStore 2 = 1400).symm.trans hbx).symm)
  rw [buildSnapshot_of_single (by norm_num [numBuckets]) hz]
  decide

/-- C2 (amended): for every store reachable from seeding by valid rating
updates, `buildSnapshot` produces a permutation of the ids `[0, N)` sorted by
descending rating and then ascending lowercase username, and
`RefreshSnapshot` publishes exactly that list; when additionally no two users
share a lowercase username, the snapshot is sorted by the full
(descending rating, ascending usernameLower, ascending id) order of the
claim.  Without that distinctness proviso the id tie-break can fail (see the
counterexample), because the per-bucket sort compares lowercase names only. -/
theorem c2_snapshot_amended (s : Store) (hreach : Reachable s) :
    (s.buildSnapshot).Perm (List.range s.totalUsers) ∧
    (s.RefreshSnapshot).snapshot = s.buildSnapshot ∧
    (s.buildSnapshot).Pairwise (snapLe s) ∧
    ((∀ i j, i < s.totalUsers → j < s.totalUsers →
        s.usernameLower i = s.usernameLower j → i = j) →
      (s.buildSnapshot).Pairwise (snapLex s)) := by
  have hs := reachable_inv hreach
  have hperm := buildSnapshot_perm hs
  have hrefresh : (s.RefreshSnapshot).snapshot = s.buildSnapshot := by
    simp only [Store.RefreshSnapshot]
  refine ⟨hperm, hrefresh, buildSnapshot_sorted hs, ?_⟩
  intro hinj
  have hnd : (s.buildSnapshot).Nodup := hperm.symm.nodup (List.nodup_range _)
  have hmemN : ∀ x ∈ s.buildSnapshot, x < s.totalUsers := by
    intro x hx
    exact List.mem_range.mp (hperm.mem_iff.mp hx)
  have hcomb := List.Pairwise.and (buildSnapshot_sorted hs) hnd
  refine List.Pairwise.imp_of_mem ?_ hcomb
  rintro a b ha hb ⟨hle, hne⟩
  rcases hle with h | ⟨hr, hlt⟩
  · exact Or.inl h
  · right
    refine ⟨hr, ?_⟩
    by_cases huv : s.usernameLower a = s.usernameLower b
    · exact absurd (hinj a b (hmemN a ha) (hmemN b hb) huv) hne
    · left
      rcases bytesLt_trichotomy (s.usernameLower a) (s.usernameLower b) with h | h | h
      · exact h
      · exact absurd h huv
      · rw [h] at hlt
        exact absurd hlt (by simp)

/-- Witness for C2 (amended) at the seeded demo store: the snapshot is a
permutation of the five ids. -/
theorem c2_snapshot_amended_witness :
    (demoStore.buildSnapshot).Perm (List.range demoStore.totalUsers) :=
  (c2_snapshot_amended demoStore (Reachable.seed demoSeeds)).1
